import Mathlib

/-!
# Blooper4 audio engine: the phase-accumulation oscillator

A shallow embedding of `src/audio_engine/src/synthesizer.cpp`, in three
readings of the same code.

Exact reading (`generate_samples`).  The C++ `double` and `float` values are
elements of a linearly ordered field `K` with a floor function (`ℚ` for
evaluation, `ℝ` for the mathematical reading): arithmetic is exact, the
`(float)` casts are the identity, and rounding, infinities and NaN are outside
the model.  A division by a zero `sample_rate` is not represented faithfully;
statements that depend on the increment assume `sample_rate` is non-zero
(positive, where the claim says so).  This reading carries the statements that
do not depend on how a result is rounded: which slots are stored to, how calls
compose, what the phase and the samples are as formulas of the arguments.

Special values (`generate_samples_ext`).  Over `Ext K` the exact numbers are
joined by `-0.0`, the two infinities and NaN with their IEEE 754 rules; there a
wrap loop may fail to end, so the functions take a bound on its subtractions
and return `none` when it is exceeded.  `generate_samples_ext_finite` shows
that this reading agrees with the exact one on finite arguments with a
non-zero sample rate.  It carries the statements about a zero sample rate.

Rounded reading (`generate_samples_fp`).  Over `ℚ`, every `double` operation
rounds to binary64 and every `float` operation or cast to binary32, to nearest
with ties to even.  It carries the statements whose truth depends on rounding:
the range of the saw, the square wave at the `PI` crossing, the accumulated
phase, and the termination of the wrap loop.

`std::sin` is a parameter `sin` of every definition that uses it.

Integers.  `wave_type`, `buffer_size` and the loop index are C `int`s; the
index never exceeds `buffer_size`, so no overflow can occur and they are
modelled by `Int` / `Nat`.

Memory.  The output region is a map from slot index to value (the code does no
bounds checking), paired with the list of indices stored to, in program order.
-/

namespace Blooper4

variable {K : Type} [LinearOrderedField K]

/-- The constant of `#define PI 3.14159265358979323846`. -/
def PI : K := 3.14159265358979323846

/-- The record `struct Oscillator { double phase; }`. -/
structure Oscillator (K : Type) where
  phase : K

/-- The constructor `create_oscillator`: a new oscillator with phase `0.0`. -/
def create_oscillator : Oscillator K := { phase := 0 }

/-- The caller-owned output region `float* buffer`: the contents of each slot
and the indices stored to so far, oldest first. -/
structure Buffer (K : Type) where
  cells : Nat → K
  written : List Nat

/-- The store `buffer[i] = x`. -/
def Buffer.store (b : Buffer K) (i : Nat) (x : K) : Buffer K :=
  { cells := fun j => if j = i then x else b.cells j
    written := b.written ++ [i] }

/-- A region nobody has stored to yet, with the given contents. -/
def Buffer.fresh (cells : Nat → K) : Buffer K := { cells := cells, written := [] }

/-- The first `n` slots of a region, in order. -/
def Buffer.take (b : Buffer K) (n : Nat) : List K := (List.range n).map b.cells

/-- Lines 32-50: the value of `sample` for the current phase, in exact
arithmetic (the `(float)` casts round nothing here; `wave_sample_fp` is the
same code with them). -/
def wave_sample (sin : K → K) (wave_type : Int) (phase : K) : K :=
  if wave_type = 0 then sin phase
  else if wave_type = 1 then (if phase < PI then 1 else -1)
  else if wave_type = 2 then (phase / PI) - 1
  else if wave_type = 3 then
    (if phase < PI then -1 + 2 * (phase / PI) else 3 - 2 * (phase / PI))
  else 0

/-- The body of `while (osc->phase >= 2.0 * PI) osc->phase -= 2.0 * PI;`
run for at most `fuel` iterations. -/
def wrap_loop : Nat → K → K
  | 0, phase => phase
  | fuel + 1, phase => if phase ≥ 2 * PI then wrap_loop fuel (phase - 2 * PI) else phase

/-- The loop `while (osc->phase >= 2.0 * PI) osc->phase -= 2.0 * PI;` run
with a bound `fuel` on the number of subtractions and a counter of them:
`none` when the test still succeeds after `fuel` subtractions, otherwise the
phase on exit and the number of subtractions performed.  In exact arithmetic
every subtraction lowers the phase by `2 * PI`, so some bound is always
enough; `wrap_loop_fp` is the same loop with binary64 rounding, where that
fails for large phases. -/
def wrap_loop_steps : Nat → K → Option (K × Nat)
  | 0, phase => if phase ≥ 2 * PI then none else some (phase, 0)
  | fuel + 1, phase =>
      if phase ≥ 2 * PI then
        (wrap_loop_steps fuel (phase - 2 * PI)).map fun r => (r.1, r.2 + 1)
      else some (phase, 0)

variable [FloorRing K]

/-- The loop `while (osc->phase >= 2.0 * PI) osc->phase -= 2.0 * PI;`.
The number of iterations it needs is `⌊phase / (2 * PI)⌋` (none for a phase
below `2 * PI`); `wrap_phase_unfold` shows this is the while loop. -/
def wrap_phase (phase : K) : K := wrap_loop (⌊phase / (2 * PI)⌋.toNat) phase

/-- Lines 55-56: `osc->phase += phase_increment;` followed by the wrap loop,
in exact arithmetic (`advance_phase_fp` is the same code with binary64
rounding). -/
def advance_phase (phase_increment phase : K) : K := wrap_phase (phase + phase_increment)

/-- The loop `for (int i = 0; i < buffer_size; ++i) { ... }` from index `i`
with `todo` iterations left. -/
def sample_loop (sin : K → K) (phase_increment volume : K) (wave_type : Int) :
    Nat → Nat → Oscillator K → Buffer K → Oscillator K × Buffer K
  | 0, _, osc, buffer => (osc, buffer)
  | todo + 1, i, osc, buffer =>
      let sample := wave_sample sin wave_type osc.phase
      let buffer := buffer.store i (sample * volume)
      let osc : Oscillator K := { phase := advance_phase phase_increment osc.phase }
      sample_loop sin phase_increment volume wave_type todo (i + 1) osc buffer

/-- The function `generate_samples`.  An absent oscillator (`nullptr`) is `none`. -/
def generate_samples (sin : K → K) (osc : Option (Oscillator K))
    (freq sample_rate volume : K) (wave_type : Int) (buffer : Buffer K) (buffer_size : Int) :
    Option (Oscillator K) × Buffer K :=
  match osc with
  | none => (none, buffer)
  | some osc =>
      let phase_increment := (2 * PI * freq) / sample_rate
      let r := sample_loop sin phase_increment volume wave_type buffer_size.toNat 0 osc buffer
      (some r.1, r.2)

/-- The per-call arguments of one invocation of `generate_samples` by the host. -/
structure Call (K : Type) where
  freq : K
  sample_rate : K
  volume : K
  wave_type : Int
  buffer : Buffer K
  buffer_size : Int

/-- The host driving one oscillator through a finite sequence of
`generate_samples` calls; the result is the oscillator after the last call. -/
def run_calls (sin : K → K) : Option (Oscillator K) → List (Call K) → Option (Oscillator K)
  | osc, [] => osc
  | osc, c :: cs =>
      run_calls sin
        (generate_samples sin osc c.freq c.sample_rate c.volume c.wave_type c.buffer
          c.buffer_size).1 cs

/-- The phase of the oscillator immediately before sample `i` of a call is
computed: the initial phase advanced `i` times by lines 55-56. -/
def phase_before_sample (phase_increment phase : K) (i : Nat) : K :=
  (advance_phase phase_increment)^[i] phase

/-- The waveform formula table of the specification (section 4.1), as a
function of the selector and the phase `p`: sine `sin p`; square `+1` if
`p < π`, else `-1`; saw `p/π - 1`; triangle `-1 + 2·(p/π)` if `p < π`, else
`3 - 2·(p/π)`; any other selector is silence. -/
def spec_formula (sin : K → K) (w : Int) (p : K) : K :=
  match w with
  | 0 => sin p
  | 1 => if p < PI then 1 else -1
  | 2 => p / PI - 1
  | 3 => if p < PI then -1 + 2 * (p / PI) else 3 - 2 * (p / PI)
  | _ => 0

/-- The closed form of the claim for the phase after `n` samples: the
representative of `p0 + n * inc` modulo `2 * PI` given by
`(p0 + n*inc) - 2*PI*floor((p0 + n*inc)/(2*PI))`. -/
def closed_form_phase (p0 inc : K) (n : Nat) : K :=
  (p0 + n * inc) - 2 * PI * ⌊(p0 + n * inc) / (2 * PI)⌋

/-! ## The same code over the IEEE special values

`Ext K` adds `-0.0`, `+∞`, `-∞` and NaN to the exact numbers, with the IEEE 754
rules for them: a non-zero number divided by a zero is the infinity whose sign
is the product of the two signs, `0/0`, `∞ - ∞` and `0 * ∞` are NaN, every
comparison with NaN is false, and the two zeros compare equal.  `fin 0` is
`+0.0` and `nzero` is `-0.0`.  Finite arithmetic stays exact (no rounding, no
overflow, no underflow).  This reading is used where the sample rate is zero. -/

/-- A `double` or `float` value: a finite number (`fin 0` is `+0.0`), `-0.0`,
`+∞`, `-∞` or NaN. -/
inductive Ext (K : Type) where
  | fin (x : K)
  | nzero
  | pinf
  | ninf
  | nan

/-- The test `std::isfinite`. -/
def Ext.isFinite : Ext K → Bool
  | .fin _ => true
  | .nzero => true
  | _ => false

/-- The value with the sign of a zero forgotten: `-0.0` becomes `+0.0`. -/
def Ext.unsign : Ext K → Ext K
  | .nzero => .fin 0
  | a => a

/-- The zero with the given sign bit. -/
def Ext.zero (negative : Bool) : Ext K :=
  if negative then .nzero else .fin 0

/-- The infinity with the sign of the finite number `x`, NaN for `x = 0`:
the value of `x * ∞`. -/
def Ext.signedInf (x : K) : Ext K :=
  if x = 0 then .nan else if 0 < x then .pinf else .ninf

/-- IEEE negation. -/
def Ext.neg : Ext K → Ext K
  | .fin x => if x = 0 then .nzero else .fin (-x)
  | .nzero => .fin 0
  | .pinf => .ninf
  | .ninf => .pinf
  | .nan => .nan

/-- IEEE addition (round to nearest: an exact zero sum of opposite numbers is
`+0.0`). -/
def Ext.add : Ext K → Ext K → Ext K
  | .nan, _ => .nan
  | _, .nan => .nan
  | .fin x, .fin y => .fin (x + y)
  | .fin x, .nzero => .fin x
  | .nzero, .fin y => .fin y
  | .nzero, .nzero => .nzero
  | .pinf, .ninf => .nan
  | .ninf, .pinf => .nan
  | .pinf, _ => .pinf
  | _, .pinf => .pinf
  | .ninf, _ => .ninf
  | _, .ninf => .ninf

/-- IEEE subtraction. -/
def Ext.sub (a b : Ext K) : Ext K := Ext.add a (Ext.neg b)

/-- IEEE multiplication: the sign of a zero product is the product of the
signs. -/
def Ext.mul : Ext K → Ext K → Ext K
  | .nan, _ => .nan
  | _, .nan => .nan
  | .fin x, .fin y =>
      if x * y = 0 then Ext.zero (decide (x < 0) != decide (y < 0)) else .fin (x * y)
  | .fin x, .nzero => Ext.zero (!decide (x < 0))
  | .nzero, .fin y => Ext.zero (!decide (y < 0))
  | .nzero, .nzero => .fin 0
  | .fin x, .pinf => Ext.signedInf x
  | .fin x, .ninf => Ext.signedInf (-x)
  | .pinf, .fin y => Ext.signedInf y
  | .ninf, .fin y => Ext.signedInf (-y)
  | .nzero, .pinf => .nan
  | .nzero, .ninf => .nan
  | .pinf, .nzero => .nan
  | .ninf, .nzero => .nan
  | .pinf, .pinf => .pinf
  | .pinf, .ninf => .ninf
  | .ninf, .pinf => .ninf
  | .ninf, .ninf => .pinf

/-- IEEE division: a non-zero number over `+0.0` is the infinity of its sign,
over `-0.0` the opposite infinity. -/
def Ext.div : Ext K → Ext K → Ext K
  | .nan, _ => .nan
  | _, .nan => .nan
  | .fin x, .fin y =>
      if y = 0 then Ext.signedInf x
      else if x = 0 then Ext.zero (decide (y < 0)) else .fin (x / y)
  | .fin x, .nzero => Ext.signedInf (-x)
  | .nzero, .fin y => if y = 0 then .nan else Ext.zero (!decide (y < 0))
  | .nzero, .nzero => .nan
  | .fin x, .pinf => Ext.zero (decide (x < 0))
  | .fin x, .ninf => Ext.zero (!decide (x < 0))
  | .nzero, .pinf => .nzero
  | .nzero, .ninf => .fin 0
  | .pinf, .fin y => if 0 ≤ y then .pinf else .ninf
  | .ninf, .fin y => if 0 ≤ y then .ninf else .pinf
  | .pinf, .nzero => .ninf
  | .ninf, .nzero => .pinf
  | .pinf, .pinf => .nan
  | .pinf, .ninf => .nan
  | .ninf, .pinf => .nan
  | .ninf, .ninf => .nan

/-- The comparison `a < b`: false when either side is NaN. -/
def Ext.lt : Ext K → Ext K → Bool
  | .nan, _ => false
  | _, .nan => false
  | .fin x, .fin y => decide (x < y)
  | .fin x, .nzero => decide (x < 0)
  | .nzero, .fin y => decide (0 < y)
  | .nzero, .nzero => false
  | .ninf, .ninf => false
  | .ninf, _ => true
  | .pinf, _ => false
  | _, .pinf => true
  | _, .ninf => false

/-- The comparison `a >= b`: false when either side is NaN. -/
def Ext.ge : Ext K → Ext K → Bool
  | .nan, _ => false
  | _, .nan => false
  | .fin x, .fin y => decide (x ≥ y)
  | .fin x, .nzero => decide (x ≥ 0)
  | .nzero, .fin y => decide (0 ≥ y)
  | .nzero, .nzero => true
  | .pinf, _ => true
  | .ninf, .ninf => true
  | .ninf, _ => false
  | _, .ninf => true
  | _, .pinf => false

/-- The call `std::sin(x)`: NaN at an infinity or NaN, `-0.0` at `-0.0`. -/
def Ext.sin (sin : K → K) : Ext K → Ext K
  | .fin x => .fin (sin x)
  | .nzero => .nzero
  | _ => .nan

/-- Lines 32-50 over `Ext K`: the value of `sample` for the current phase. -/
def wave_sample_ext (sin : K → K) (wave_type : Int) (phase : Ext K) : Ext K :=
  if wave_type = 0 then Ext.sin sin phase
  else if wave_type = 1 then (if Ext.lt phase (.fin PI) then .fin 1 else .fin (-1))
  else if wave_type = 2 then Ext.sub (Ext.div phase (.fin PI)) (.fin 1)
  else if wave_type = 3 then
    (if Ext.lt phase (.fin PI) then
      Ext.add (.fin (-1)) (Ext.mul (.fin 2) (Ext.div phase (.fin PI)))
    else Ext.sub (.fin 3) (Ext.mul (.fin 2) (Ext.div phase (.fin PI))))
  else .fin 0

/-- The loop `while (osc->phase >= 2.0 * PI) osc->phase -= 2.0 * PI;` over
`Ext K`, with a bound `fuel` on the number of subtractions: `none` when the
test still succeeds after `fuel` subtractions. -/
def wrap_loop_ext : Nat → Ext K → Option (Ext K)
  | 0, phase =>
      if Ext.ge phase (Ext.mul (.fin 2) (.fin PI)) then none else some phase
  | fuel + 1, phase =>
      if Ext.ge phase (Ext.mul (.fin 2) (.fin PI)) then
        wrap_loop_ext fuel (Ext.sub phase (Ext.mul (.fin 2) (.fin PI)))
      else some phase

/-- The loop `for (int i = 0; i < buffer_size; ++i) { ... }` over `Ext K`
from index `i` with `todo` iterations left; `none` when a wrap loop does not
end within `fuel` subtractions. -/
def sample_loop_ext (fuel : Nat) (sin : K → K) (phase_increment volume : Ext K)
    (wave_type : Int) :
    Nat → Nat → Oscillator (Ext K) → Buffer (Ext K) →
      Option (Oscillator (Ext K) × Buffer (Ext K))
  | 0, _, osc, buffer => some (osc, buffer)
  | todo + 1, i, osc, buffer =>
      let sample := wave_sample_ext sin wave_type osc.phase
      let buffer := buffer.store i (Ext.mul sample volume)
      match wrap_loop_ext fuel (Ext.add osc.phase phase_increment) with
      | none => none
      | some phase =>
          sample_loop_ext fuel sin phase_increment volume wave_type todo (i + 1)
            { phase := phase } buffer

/-- The function `generate_samples` over `Ext K`; `none` when the call does
not return within `fuel` subtractions per wrap loop. -/
def generate_samples_ext (fuel : Nat) (sin : K → K) (osc : Option (Oscillator (Ext K)))
    (freq sample_rate volume : Ext K) (wave_type : Int) (buffer : Buffer (Ext K))
    (buffer_size : Int) : Option (Option (Oscillator (Ext K)) × Buffer (Ext K)) :=
  match osc with
  | none => some (none, buffer)
  | some osc =>
      let phase_increment := Ext.div (Ext.mul (Ext.mul (.fin 2) (.fin PI)) freq) sample_rate
      (sample_loop_ext fuel sin phase_increment volume wave_type buffer_size.toNat 0 osc
        buffer).map fun r => (some r.1, r.2)

/-- A region of finite values read as a region of `Ext K` values. -/
def Buffer.toExt (b : Buffer K) : Buffer (Ext K) :=
  { cells := fun j => .fin (b.cells j), written := b.written }

/-! ## Binary rounding

Round to nearest, ties to even, into a binary format with `mant` fraction bits
and least normal exponent `emin` (subnormals included, no upper limit on the
exponent). -/

/-- The number `floor (log2 n)` for `n ≥ 1` (and `0` for `n = 0`), by halving at
most `fuel` times. -/
def log2_fuel : Nat → Nat → Nat
  | 0, _ => 0
  | fuel + 1, n => if n < 2 then 0 else log2_fuel fuel (n / 2) + 1

/-- The number `ceil (log2 n)` for `n ≥ 1` (and `0` for `n = 0`), by halving at
most `fuel` times. -/
def clog2_fuel : Nat → Nat → Nat
  | 0, _ => 0
  | fuel + 1, n => if n < 2 then 0 else clog2_fuel fuel ((n + 1) / 2) + 1

/-- The binary exponent of a positive number `x`: the integer `e` with
`2^e ≤ x < 2^(e+1)`. -/
def binary_exponent (x : ℚ) : ℤ :=
  if 1 ≤ x then (log2_fuel ⌊x⌋₊ ⌊x⌋₊ : ℤ) else -(clog2_fuel ⌈x⁻¹⌉₊ ⌈x⁻¹⌉₊ : ℤ)

/-- Rounding to the nearest integer, ties to the even one. -/
def round_half_even (x : ℚ) : ℤ :=
  if x - ⌊x⌋ < 1 / 2 then ⌊x⌋
  else if 1 / 2 < x - ⌊x⌋ then ⌊x⌋ + 1
  else if ⌊x⌋ % 2 = 0 then ⌊x⌋ else ⌊x⌋ + 1

/-- The unit in the last place at `x` of the binary format with `mant`
fraction bits and least normal exponent `emin` (below `2^emin` the spacing is
that of the subnormal numbers). -/
def ulp (mant : Nat) (emin : ℤ) (x : ℚ) : ℚ :=
  2 ^ (max (binary_exponent |x|) emin - mant)

/-- IEEE 754 rounding to nearest, ties to even, into the binary format with
`mant` fraction bits and least normal exponent `emin`.  Overflow to an
infinity is not represented: the result is right for values below the largest
finite number of the format. -/
def round_binary (mant : Nat) (emin : ℤ) (x : ℚ) : ℚ :=
  round_half_even (x / ulp mant emin x) * ulp mant emin x

/-- The rounding of a result to `double` (binary64). -/
def to_double (x : ℚ) : ℚ := round_binary 52 (-1022) x

/-- The rounding of a result to `float` (binary32), as in a `(float)` cast or a
`float` product. -/
def to_float (x : ℚ) : ℚ := round_binary 23 (-126) x

/-! ## The same code in binary64 and binary32

The rounded reading: every `double` operation of the source rounds its exact
result to binary64 and every `float` operation or `(float)` cast to binary32,
to nearest with ties to even (strict IEEE 754 evaluation of each operation,
no fused or extended-precision intermediate).  `float` arguments enter the
`double` arithmetic unchanged.  Values are rationals; overflow, infinities and
NaN are not represented, so this reading is for a non-zero sample rate and
magnitudes below the largest finite number.  The wrap loop need not end here,
so the functions take a bound on its subtractions and return `none` when it
is exceeded. -/

/-- The `double` that the literal of `#define PI` denotes
(`0x400921FB54442D18`); `PI_double_eq` shows it is the rounding of `PI`. -/
def PI_double : ℚ := 884279719003555 / 281474976710656

/-- The value of the subexpression `2.0 * PI`. -/
def two_PI_double : ℚ := to_double (2 * PI_double)

/-- Lines 32-50 in binary64 and binary32; `sin` is `std::sin` on `double`. -/
def wave_sample_fp (sin : ℚ → ℚ) (wave_type : Int) (phase : ℚ) : ℚ :=
  if wave_type = 0 then to_float (sin phase)
  else if wave_type = 1 then (if phase < PI_double then 1 else -1)
  else if wave_type = 2 then to_float (to_double (to_double (phase / PI_double) - 1))
  else if wave_type = 3 then
    (if phase < PI_double then
      to_float (to_double (-1 + to_double (2 * to_double (phase / PI_double))))
    else to_float (to_double (3 - to_double (2 * to_double (phase / PI_double)))))
  else 0

/-- The loop `while (osc->phase >= 2.0 * PI) osc->phase -= 2.0 * PI;` in
binary64, with a bound `fuel` on the number of subtractions and a counter of
them: `none` when the test still succeeds after `fuel` subtractions. -/
def wrap_loop_fp : Nat → ℚ → Option (ℚ × Nat)
  | 0, phase => if phase ≥ two_PI_double then none else some (phase, 0)
  | fuel + 1, phase =>
      if phase ≥ two_PI_double then
        (wrap_loop_fp fuel (to_double (phase - two_PI_double))).map fun r => (r.1, r.2 + 1)
      else some (phase, 0)

/-- Lines 55-56 in binary64: the phase after `osc->phase += phase_increment`
and the wrap loop, `none` when the loop does not end within `fuel`
subtractions. -/
def advance_phase_fp (fuel : Nat) (phase_increment phase : ℚ) : Option ℚ :=
  (wrap_loop_fp fuel (to_double (phase + phase_increment))).map Prod.fst

/-- The loop `for (int i = 0; i < buffer_size; ++i) { ... }` in binary64 and
binary32, from index `i` with `todo` iterations left. -/
def sample_loop_fp (fuel : Nat) (sin : ℚ → ℚ) (phase_increment volume : ℚ) (wave_type : Int) :
    Nat → Nat → Oscillator ℚ → Buffer ℚ → Option (Oscillator ℚ × Buffer ℚ)
  | 0, _, osc, buffer => some (osc, buffer)
  | todo + 1, i, osc, buffer =>
      let sample := wave_sample_fp sin wave_type osc.phase
      let buffer := buffer.store i (to_float (sample * volume))
      match advance_phase_fp fuel phase_increment osc.phase with
      | none => none
      | some phase =>
          sample_loop_fp fuel sin phase_increment volume wave_type todo (i + 1)
            { phase := phase } buffer

/-- The value of `phase_increment` (line 29) in binary64. -/
def phase_increment_fp (freq sample_rate : ℚ) : ℚ :=
  to_double (to_double (two_PI_double * freq) / sample_rate)

/-- The function `generate_samples` in binary64 and binary32; `none` when the
call does not return within `fuel` subtractions per wrap loop. -/
def generate_samples_fp (fuel : Nat) (sin : ℚ → ℚ) (osc : Option (Oscillator ℚ))
    (freq sample_rate volume : ℚ) (wave_type : Int) (buffer : Buffer ℚ) (buffer_size : Int) :
    Option (Option (Oscillator ℚ) × Buffer ℚ) :=
  match osc with
  | none => some (none, buffer)
  | some osc =>
      (sample_loop_fp fuel sin (phase_increment_fp freq sample_rate) volume wave_type
        buffer_size.toNat 0 osc buffer).map fun r => (some r.1, r.2)

/-- The phase before sample `k` in the rounded reading: the starting phase
advanced `k` times, `none` when a wrap loop exceeds the bound. -/
def phase_fp (fuel : Nat) (phase_increment : ℚ) : Nat → ℚ → Option ℚ
  | 0, phase => some phase
  | k + 1, phase =>
      match advance_phase_fp fuel phase_increment phase with
      | none => none
      | some next => phase_fp fuel phase_increment k next

/-! ## The wrap loop -/

omit [FloorRing K] in
theorem PI_pos : (0 : K) < PI := by
  unfold PI
  norm_num

omit [FloorRing K] in
theorem two_PI_pos : (0 : K) < 2 * PI := by
  have h := PI_pos (K := K)
  linarith

theorem floor_sub_turn (p : K) : ⌊(p - 2 * PI) / (2 * PI)⌋ = ⌊p / (2 * PI)⌋ - 1 := by
  have h := two_PI_pos (K := K)
  rw [sub_div, div_self (ne_of_gt h), Int.floor_sub_one]

omit [FloorRing K] in
theorem wrap_loop_of_lt (fuel : Nat) (p : K) (h : p < 2 * PI) : wrap_loop fuel p = p := by
  cases fuel with
  | zero => rfl
  | succ n => simp [wrap_loop, not_le.mpr h]

/-- The definition of `wrap_phase` is the while loop: one test, and when it
succeeds one subtraction followed by the loop again. -/
theorem wrap_phase_unfold (p : K) :
    wrap_phase p = if p ≥ 2 * PI then wrap_phase (p - 2 * PI) else p := by
  have h2 := two_PI_pos (K := K)
  by_cases h : p ≥ 2 * PI
  · have h1 : (1 : ℤ) ≤ ⌊p / (2 * PI)⌋ := by
      rw [Int.le_floor]
      rw [le_div_iff₀ h2]
      simpa using h
    obtain ⟨k, hk⟩ : ∃ k : Nat, ⌊p / (2 * PI)⌋ = (k : ℤ) + 1 :=
      ⟨(⌊p / (2 * PI)⌋ - 1).toNat, by rw [Int.toNat_of_nonneg (by omega)]; ring⟩
    have e1 : ⌊p / (2 * PI)⌋.toNat = k + 1 := by rw [hk]; rfl
    have e2 : ⌊(p - 2 * PI) / (2 * PI)⌋.toNat = k := by
      rw [floor_sub_turn, hk]; simp
    rw [if_pos h]
    unfold wrap_phase
    rw [e1, e2, wrap_loop, if_pos h]
  · rw [if_neg h]
    exact wrap_loop_of_lt _ _ (not_le.mp h)

theorem wrap_loop_lt (fuel : Nat) : ∀ p : K, ⌊p / (2 * PI)⌋.toNat ≤ fuel →
    wrap_loop fuel p < 2 * PI := by
  have h2 := two_PI_pos (K := K)
  induction fuel with
  | zero =>
    intro p hp
    have h0 : ⌊p / (2 * PI)⌋ ≤ 0 := by omega
    have h1 : p / (2 * PI) < 1 := by
      have := Int.floor_le_iff.mp h0
      simpa using this
    simpa [wrap_loop] using (div_lt_one h2).mp h1
  | succ n ih =>
    intro p hp
    by_cases h : p ≥ 2 * PI
    · rw [wrap_loop, if_pos h]
      apply ih
      rw [floor_sub_turn]
      omega
    · rw [wrap_loop, if_neg h]
      exact not_le.mp h

omit [FloorRing K] in
theorem wrap_loop_nonneg (fuel : Nat) : ∀ p : K, 0 ≤ p → 0 ≤ wrap_loop fuel p := by
  induction fuel with
  | zero => intro p hp; simpa [wrap_loop] using hp
  | succ n ih =>
    intro p hp
    by_cases h : p ≥ 2 * PI
    · rw [wrap_loop, if_pos h]
      exact ih _ (by linarith)
    · rw [wrap_loop, if_neg h]
      exact hp

/-- The wrap loop ends with the phase below `2 * PI`. -/
theorem wrap_phase_lt (p : K) : wrap_phase p < 2 * PI :=
  wrap_loop_lt _ p le_rfl

theorem wrap_phase_nonneg (p : K) (h : 0 ≤ p) : 0 ≤ wrap_phase p :=
  wrap_loop_nonneg _ p h

theorem wrap_phase_of_lt (p : K) (h : p < 2 * PI) : wrap_phase p = p :=
  wrap_loop_of_lt _ p h

/-! ## The sample loop -/

section loop

variable (sin : K → K) (inc volume : K) (wave_type : Int)

theorem sample_loop_add (a b : Nat) : ∀ (i : Nat) (osc : Oscillator K) (buffer : Buffer K),
    sample_loop sin inc volume wave_type (a + b) i osc buffer =
      sample_loop sin inc volume wave_type b (i + a)
        (sample_loop sin inc volume wave_type a i osc buffer).1
        (sample_loop sin inc volume wave_type a i osc buffer).2 := by
  induction a with
  | zero => intro i osc buffer; simp [sample_loop]
  | succ n ih =>
    intro i osc buffer
    rw [Nat.succ_add]
    simp only [sample_loop]
    rw [ih]
    congr 1
    omega

theorem sample_loop_phase (n : Nat) : ∀ (i : Nat) (osc : Oscillator K) (buffer : Buffer K),
    (sample_loop sin inc volume wave_type n i osc buffer).1.phase =
      (advance_phase inc)^[n] osc.phase := by
  induction n with
  | zero => intro i osc buffer; rfl
  | succ n ih =>
    intro i osc buffer
    simp only [sample_loop]
    rw [ih, Function.iterate_succ_apply]

theorem sample_loop_cells (n : Nat) : ∀ (i : Nat) (osc : Oscillator K) (buffer : Buffer K) (j : Nat),
    (sample_loop sin inc volume wave_type n i osc buffer).2.cells j =
      if i ≤ j ∧ j < i + n then
        wave_sample sin wave_type ((advance_phase inc)^[j - i] osc.phase) * volume
      else buffer.cells j := by
  induction n with
  | zero =>
    intro i osc buffer j
    have : ¬ (i ≤ j ∧ j < i) := by omega
    simp [sample_loop, this]
  | succ n ih =>
    intro i osc buffer j
    simp only [sample_loop]
    rw [ih]
    rcases Nat.lt_trichotomy j i with h | h | h
    · have c1 : ¬ (i + 1 ≤ j ∧ j < i + 1 + n) := by omega
      have c2 : ¬ (i ≤ j ∧ j < i + (n + 1)) := by omega
      have c3 : j ≠ i := by omega
      simp [c1, c2, c3, Buffer.store]
    · subst h
      have c1 : ¬ (j + 1 ≤ j ∧ j < j + 1 + n) := by omega
      have c2 : j ≤ j ∧ j < j + (n + 1) := by omega
      simp [c1, c2, Buffer.store]
    · by_cases hj : j < i + (n + 1)
      · have c1 : i + 1 ≤ j ∧ j < i + 1 + n := by omega
        have c2 : i ≤ j ∧ j < i + (n + 1) := by omega
        have e : j - i = (j - (i + 1)) + 1 := by omega
        rw [if_pos c1, if_pos c2, e, Function.iterate_succ_apply]
      · have c1 : ¬ (i + 1 ≤ j ∧ j < i + 1 + n) := by omega
        have c2 : ¬ (i ≤ j ∧ j < i + (n + 1)) := by omega
        have c3 : j ≠ i := by omega
        simp [c1, c2, c3, Buffer.store]

end loop

/-! ## One call -/

theorem generate_samples_osc (sin : K → K) (osc : Oscillator K) (freq sample_rate volume : K)
    (wave_type : Int) (buffer : Buffer K) (buffer_size : Int) :
    (generate_samples sin (some osc) freq sample_rate volume wave_type buffer buffer_size).1 =
      some { phase := (advance_phase ((2 * PI * freq) / sample_rate))^[buffer_size.toNat] osc.phase } := by
  simp only [generate_samples]
  rw [← sample_loop_phase sin _ volume wave_type buffer_size.toNat 0 osc buffer]

theorem generate_samples_cells (sin : K → K) (osc : Oscillator K) (freq sample_rate volume : K)
    (wave_type : Int) (buffer : Buffer K) (buffer_size : Int) (j : Nat) :
    (generate_samples sin (some osc) freq sample_rate volume wave_type buffer buffer_size).2.cells j =
      if j < buffer_size.toNat then
        wave_sample sin wave_type ((advance_phase ((2 * PI * freq) / sample_rate))^[j] osc.phase) * volume
      else buffer.cells j := by
  simp only [generate_samples]
  rw [sample_loop_cells]
  simp

theorem generate_samples_take (sin : K → K) (osc : Oscillator K) (freq sample_rate volume : K)
    (wave_type : Int) (buffer : Buffer K) (n : Nat) :
    (generate_samples sin (some osc) freq sample_rate volume wave_type buffer n).2.take n =
      (List.range n).map fun j =>
        wave_sample sin wave_type ((advance_phase ((2 * PI * freq) / sample_rate))^[j] osc.phase) * volume := by
  unfold Buffer.take
  apply List.map_congr_left
  intro j hj
  rw [generate_samples_cells]
  rw [if_pos (by simpa using List.mem_range.mp hj)]

/-! ## Claims -/

/-- C1, continuity law: for every initial phase, frequency, positive sample
rate, volume and waveform selector, a call of `n1` samples followed by a call
of `n2` samples on the resulting oscillator writes two buffers whose
concatenation equals, element for element, the buffer written by one call of
`n1 + n2` samples from the same initial phase, and both runs end with the
same oscillator phase. -/
theorem continuity_law (sin : K → K) (osc : Oscillator K) (freq sample_rate volume : K)
    (wave_type : Int) (buf1 buf2 buf3 : Buffer K) (n1 n2 : Nat) (_hsr : 0 < sample_rate) :
    (generate_samples sin (some osc) freq sample_rate volume wave_type buf3
        ((n1 + n2 : Nat) : Int)).2.take (n1 + n2) =
      (generate_samples sin (some osc) freq sample_rate volume wave_type buf1 n1).2.take n1 ++
        (generate_samples sin
          (generate_samples sin (some osc) freq sample_rate volume wave_type buf1 n1).1
          freq sample_rate volume wave_type buf2 n2).2.take n2
    ∧ (generate_samples sin (some osc) freq sample_rate volume wave_type buf3
        ((n1 + n2 : Nat) : Int)).1 =
      (generate_samples sin
          (generate_samples sin (some osc) freq sample_rate volume wave_type buf1 n1).1
          freq sample_rate volume wave_type buf2 n2).1 := by
  rw [generate_samples_osc sin osc freq sample_rate volume wave_type buf1]
  rw [generate_samples_take, generate_samples_take, generate_samples_take]
  rw [generate_samples_osc, generate_samples_osc]
  simp only [Int.toNat_ofNat]
  constructor
  · rw [List.range_add, List.map_append, List.map_map]
    congr 1
    apply List.map_congr_left
    intro j _
    simp only [Function.comp_apply]
    rw [Nat.add_comm n1 j, Function.iterate_add_apply]
  · rw [Nat.add_comm n1 n2, Function.iterate_add_apply]

/-- Witness for C1: the square wave of 1000 Hz at 8000 samples per second,
split as 3 + 5 samples. -/
theorem continuity_law_witness :
    (0 : ℚ) < 8000 ∧
    ((generate_samples (fun _ => (0 : ℚ)) (some create_oscillator) 1000 8000 (1 / 2) 1
        (Buffer.fresh fun _ => 0) ((3 + 5 : Nat) : Int)).2.take (3 + 5) =
      (generate_samples (fun _ => (0 : ℚ)) (some create_oscillator) 1000 8000 (1 / 2) 1
        (Buffer.fresh fun _ => 0) (3 : Nat)).2.take 3 ++
        (generate_samples (fun _ => (0 : ℚ))
          (generate_samples (fun _ => (0 : ℚ)) (some create_oscillator) 1000 8000 (1 / 2) 1
            (Buffer.fresh fun _ => 0) (3 : Nat)).1
          1000 8000 (1 / 2) 1 (Buffer.fresh fun _ => 0) (5 : Nat)).2.take 5
    ∧ (generate_samples (fun _ => (0 : ℚ)) (some create_oscillator) 1000 8000 (1 / 2) 1
        (Buffer.fresh fun _ => 0) ((3 + 5 : Nat) : Int)).1 =
      (generate_samples (fun _ => (0 : ℚ))
          (generate_samples (fun _ => (0 : ℚ)) (some create_oscillator) 1000 8000 (1 / 2) 1
            (Buffer.fresh fun _ => 0) (3 : Nat)).1
          1000 8000 (1 / 2) 1 (Buffer.fresh fun _ => 0) (5 : Nat)).1) :=
  ⟨by norm_num, continuity_law _ _ _ _ _ _ _ _ _ 3 5 (by norm_num)⟩

/-! ### C2 -/

theorem advance_phase_lt (inc p : K) : advance_phase inc p < 2 * PI :=
  wrap_phase_lt _

theorem advance_phase_nonneg (inc p : K) (hinc : 0 ≤ inc) (hp : 0 ≤ p) :
    0 ≤ advance_phase inc p :=
  wrap_phase_nonneg _ (add_nonneg hp hinc)

theorem iterate_advance_range (inc p : K) (hinc : 0 ≤ inc) (hp : 0 ≤ p) (hp2 : p < 2 * PI)
    (n : Nat) : 0 ≤ (advance_phase inc)^[n] p ∧ (advance_phase inc)^[n] p < 2 * PI := by
  induction n with
  | zero => exact ⟨hp, hp2⟩
  | succ n ih =>
    rw [Function.iterate_succ_apply']
    exact ⟨advance_phase_nonneg _ _ hinc ih.1, advance_phase_lt _ _⟩

omit [FloorRing K] in
theorem increment_nonneg (freq sample_rate : K) (hf : 0 ≤ freq) (hsr : 0 < sample_rate) :
    0 ≤ (2 * PI * freq) / sample_rate :=
  div_nonneg (mul_nonneg (le_of_lt two_PI_pos) hf) (le_of_lt hsr)

theorem run_calls_range (sin : K → K) (calls : List (Call K)) :
    ∀ (osc : Oscillator K), 0 ≤ osc.phase → osc.phase < 2 * PI →
      (∀ c ∈ calls, 0 ≤ c.freq ∧ 0 < c.sample_rate) →
      ∃ o, run_calls sin (some osc) calls = some o ∧ 0 ≤ o.phase ∧ o.phase < 2 * PI := by
  induction calls with
  | nil => intro osc h0 h1 _; exact ⟨osc, rfl, h0, h1⟩
  | cons c cs ih =>
    intro osc h0 h1 hc
    have hcc := hc c (List.mem_cons_self _ _)
    have hr := iterate_advance_range _ osc.phase (increment_nonneg c.freq c.sample_rate hcc.1 hcc.2)
      h0 h1 c.buffer_size.toNat
    simp only [run_calls]
    rw [generate_samples_osc]
    exact ih _ hr.1 hr.2 (fun d hd => hc d (List.mem_cons_of_mem _ hd))

/-- With non-negative frequencies and positive sample rates the phase after
every call (after the first `k` calls, for every `k`) of a fresh oscillator
satisfies `0 ≤ phase < 2 * PI`. -/
theorem phase_range_of_nonneg_freq (sin : K → K) (calls : List (Call K))
    (h : ∀ c ∈ calls, 0 ≤ c.freq ∧ 0 < c.sample_rate) (k : Nat) :
    ∃ o, run_calls sin (some create_oscillator) (calls.take k) = some o ∧
      0 ≤ o.phase ∧ o.phase < 2 * PI := by
  apply run_calls_range
  · exact le_refl _
  · exact two_PI_pos
  · exact fun c hc => h c (List.mem_of_mem_take hc)

set_option maxRecDepth 100000 in
/-- C2, phase wrap invariant: the code breaks the range `(0 to 2*PI)` that its
own comment on line 54 announces.  From a fresh oscillator, one call with
frequency `-1`, sample rate `1` (positive) and count `1` leaves the phase at
`-(2 * PI)`, which is negative: the loop on line 56 only ever subtracts.  The
exact reading and the rounded reading agree on this input. -/
theorem negative_frequency_phase :
    (0 : ℚ) < 1 ∧
    (run_calls (fun _ => (0 : ℚ)) (some create_oscillator)
        [{ freq := -1, sample_rate := 1, volume := 1, wave_type := 0,
           buffer := Buffer.fresh fun _ => 0, buffer_size := 1 }]).map Oscillator.phase
      = some (-(2 * PI)) ∧
    ¬ (0 ≤ (-(2 * PI) : ℚ)) ∧
    (generate_samples_fp 0 (fun _ => 0) (some create_oscillator) (-1) 1 1 0
      (Buffer.fresh fun _ => 0) 1).map (fun r => r.1.map fun o => o.phase) =
        some (some (-two_PI_double)) ∧
    ¬ (0 ≤ -two_PI_double) := by
  refine ⟨by norm_num, ?_, ?_, by decide!, by decide!⟩
  · norm_num [run_calls, generate_samples, sample_loop, advance_phase, wrap_phase, wrap_loop,
      create_oscillator, PI]
  · norm_num [PI]

/-! ### C3 -/

omit [FloorRing K] in
theorem wave_sample_eq_spec_formula (sin : K → K) (w : Int) (p : K)
    (hw : w = 0 ∨ w = 1 ∨ w = 2 ∨ w = 3) : wave_sample sin w p = spec_formula sin w p := by
  rcases hw with h | h | h | h <;> subst h <;> simp [wave_sample, spec_formula]

/-- C3, per-sample formula: for every call with count `n`, a non-zero sample
rate and selector `w` in {0,1,2,3}, the `i`-th written sample (`i < n`) equals
`f_w(p_i) * volume`, where `p_i` is the phase immediately before sample `i` is
computed and `f_w` is the formula table of the specification.  In particular,
from a fresh oscillator the first sine sample is `0` (given `sin 0 = 0`), and
with frequency 100, sample rate 44100 and volume 1 the first two saw samples
are `-1` and `increment/PI - 1 = 200/44100 - 1`. -/
theorem per_sample_formula (sin : K → K) :
    (∀ (osc : Oscillator K) (freq sample_rate volume : K) (w : Int) (buffer : Buffer K)
        (n i : Nat), sample_rate ≠ 0 → (w = 0 ∨ w = 1 ∨ w = 2 ∨ w = 3) → i < n →
        (generate_samples sin (some osc) freq sample_rate volume w buffer n).2.cells i =
          spec_formula sin w
            (phase_before_sample ((2 * PI * freq) / sample_rate) osc.phase i) * volume)
    ∧ (sin 0 = 0 → ∀ (freq sample_rate volume : K) (buffer : Buffer K) (n : Nat),
        sample_rate ≠ 0 → 0 < n →
        (generate_samples sin (some create_oscillator) freq sample_rate volume 0 buffer n).2.cells 0
          = 0)
    ∧ (∀ buffer : Buffer K,
        (generate_samples sin (some create_oscillator) 100 44100 1 2 buffer 2).2.cells 0 = -1 ∧
        (generate_samples sin (some create_oscillator) 100 44100 1 2 buffer 2).2.cells 1
          = ((2 * PI * 100) / 44100) / PI - 1 ∧
        (generate_samples sin (some create_oscillator) 100 44100 1 2 buffer 2).2.cells 1
          = 200 / 44100 - 1) := by
  have hpi := PI_pos (K := K)
  refine ⟨?_, ?_, ?_⟩
  · intro osc freq sample_rate volume w buffer n i _ hw hi
    rw [generate_samples_cells, if_pos (by simpa using hi), wave_sample_eq_spec_formula _ _ _ hw]
    rfl
  · intro h0 freq sample_rate volume buffer n _ hn
    rw [generate_samples_cells, if_pos (by simpa using hn)]
    simp [wave_sample, create_oscillator, h0]
  · intro buffer
    have hinc : (0 : K) + (2 * PI * 100) / 44100 < 2 * PI := by
      rw [zero_add, div_lt_iff₀ (by norm_num)]
      linarith
    have e1 : (advance_phase ((2 * PI * 100) / 44100 : K))^[1] (create_oscillator (K := K)).phase
        = (2 * PI * 100) / 44100 := by
      simp only [Function.iterate_one, create_oscillator, advance_phase]
      rw [wrap_phase_of_lt _ hinc, zero_add]
    refine ⟨?_, ?_, ?_⟩
    · rw [generate_samples_cells, if_pos (by decide)]
      simp [wave_sample, create_oscillator]
    · rw [generate_samples_cells, if_pos (by decide), e1]
      simp [wave_sample]
    · rw [generate_samples_cells, if_pos (by decide), e1]
      simp only [wave_sample]
      norm_num
      field_simp
      ring

/-- Witness for C3: the sine wave of 440 Hz at 44100 samples per second over
the reals, with the real sine function. -/
theorem per_sample_formula_witness :
    (44100 : ℝ) ≠ 0 ∧ ((0 : Int) = 0 ∨ (0 : Int) = 1 ∨ (0 : Int) = 2 ∨ (0 : Int) = 3) ∧
    1 < 4 ∧ Real.sin 0 = 0 ∧
    (generate_samples Real.sin (some create_oscillator) 440 44100 1 0
        (Buffer.fresh fun _ => 0) (4 : Nat)).2.cells 1 =
      spec_formula Real.sin 0
        (phase_before_sample ((2 * PI * 440) / 44100) (create_oscillator (K := ℝ)).phase 1) * 1 ∧
    (generate_samples Real.sin (some create_oscillator) 440 44100 1 0
        (Buffer.fresh fun _ => 0) (4 : Nat)).2.cells 0 = 0 :=
  ⟨by norm_num, Or.inl rfl, by norm_num, Real.sin_zero,
    (per_sample_formula Real.sin).1 create_oscillator 440 44100 1 0 _ 4 1 (by norm_num)
      (Or.inl rfl) (by norm_num),
    (per_sample_formula Real.sin).2.1 Real.sin_zero 440 44100 1 _ 4 (by norm_num) (by norm_num)⟩

/-! ### C4 -/

theorem run_calls_some (sin : K → K) (calls : List (Call K)) :
    ∀ osc : Oscillator K, ∃ o, run_calls sin (some osc) calls = some o := by
  induction calls with
  | nil => intro osc; exact ⟨osc, rfl⟩
  | cons c cs ih =>
    intro osc
    simp only [run_calls]
    rw [generate_samples_osc]
    exact ih _

omit [FloorRing K] in
theorem triangle_abs_le (sin : K → K) (q : K) (h0 : 0 ≤ q) (h1 : q < 2 * PI) :
    |wave_sample sin 3 q| ≤ 1 := by
  have hpi := PI_pos (K := K)
  have hq0 : 0 ≤ q / PI := div_nonneg h0 (le_of_lt hpi)
  have hq2 : q / PI < 2 := by
    rw [div_lt_iff₀ hpi]
    linarith
  have e : wave_sample sin 3 q =
      if q < PI then -1 + 2 * (q / PI) else 3 - 2 * (q / PI) := by
    simp [wave_sample]
  rw [e]
  split_ifs with h
  · have hq1 : q / PI < 1 := (div_lt_one hpi).mpr h
    rw [abs_le]
    constructor <;> linarith
  · have hq1 : 1 ≤ q / PI := (one_le_div hpi).mpr (not_lt.mp h)
    rw [abs_le]
    constructor <;> linarith

omit [FloorRing K] in
theorem square_abs_le (sin : K → K) (q : K) : |wave_sample sin 1 q| ≤ 1 := by
  have e : wave_sample sin 1 q = if q < PI then 1 else -1 := by
    simp [wave_sample]
  rw [e]
  split_ifs <;> simp

omit [FloorRing K] in
theorem scaled_abs_le (a v : K) (h : |a| ≤ 1) : |a * v| ≤ |v| := by
  rw [abs_mul]
  calc |a| * |v| ≤ 1 * |v| := mul_le_mul_of_nonneg_right h (abs_nonneg v)
    _ = |v| := one_mul _

/-- For every oscillator state reachable from `create_oscillator` by calls
with positive sample rate, and every further call with positive sample rate,
every sample written has absolute value at most `|volume|` when the waveform
is sine or square, and when it is triangle provided the frequency of this call
and of every earlier call is non-negative (exact reading; the sine function is
assumed to take values in `[-1, 1]`). -/
theorem bounded_output_of_nonneg_freq (sin : K → K) (hsin : ∀ x, |sin x| ≤ 1) (calls : List (Call K))
    (hcalls : ∀ c ∈ calls, 0 < c.sample_rate)
    (freq sample_rate volume : K) (w : Int) (buffer : Buffer K) (n : Int)
    (hsr : 0 < sample_rate)
    (hw : w = 0 ∨ w = 1 ∨ (w = 3 ∧ 0 ≤ freq ∧ ∀ c ∈ calls, 0 ≤ c.freq))
    (i : Nat) (hi : i < n.toNat) :
    |(generate_samples sin (run_calls sin (some create_oscillator) calls)
        freq sample_rate volume w buffer n).2.cells i| ≤ |volume| := by
  rcases hw with h | h | ⟨h, hf, hfs⟩
  · obtain ⟨o, ho⟩ := run_calls_some sin calls create_oscillator
    rw [ho, generate_samples_cells, if_pos hi]
    apply scaled_abs_le
    subst h
    simpa [wave_sample] using hsin _
  · obtain ⟨o, ho⟩ := run_calls_some sin calls create_oscillator
    rw [ho, generate_samples_cells, if_pos hi]
    apply scaled_abs_le
    subst h
    exact square_abs_le sin _
  · obtain ⟨o, ho, h0, h1⟩ := run_calls_range sin calls create_oscillator (le_refl _)
      two_PI_pos (fun c hc => ⟨hfs c hc, hcalls c hc⟩)
    rw [ho, generate_samples_cells, if_pos hi]
    apply scaled_abs_le
    subst h
    have hr := iterate_advance_range _ o.phase (increment_nonneg freq sample_rate hf hsr) h0 h1 i
    exact triangle_abs_le sin _ hr.1 hr.2

set_option maxRecDepth 100000 in
/-- C4, bounded output: violated by the code, through the same defect as C2
(the phase is not kept in the range `(0 to 2*PI)` that the comment on line 54
announces).  On a fresh oscillator the triangle call with frequency `-1`,
sample rate `1`, volume `1` and count `2` writes `-1` and then `-5`, whose
absolute value exceeds `|1|`: sample 1 is computed at the phase `-(2 * PI)`.
The exact reading and the rounded reading agree on this input. -/
theorem negative_frequency_triangle :
    (0 : ℚ) < 1 ∧
    (generate_samples (fun _ => (0 : ℚ)) (run_calls (fun _ => (0 : ℚ)) (some create_oscillator) [])
        (-1) 1 1 3 (Buffer.fresh fun _ => 0) 2).2.cells 1 = -5 ∧
    ¬ (|(-5 : ℚ)| ≤ |(1 : ℚ)|) ∧
    (generate_samples_fp 0 (fun _ => 0) (some create_oscillator) (-1) 1 1 3
      (Buffer.fresh fun _ => 0) 2).map (fun r => r.2.take 2) = some [-1, -5] := by
  refine ⟨by norm_num, ?_, by norm_num, by decide!⟩
  norm_num [run_calls, generate_samples, sample_loop, wave_sample, advance_phase, wrap_phase,
    wrap_loop, create_oscillator, Buffer.store, Buffer.fresh, PI]

/-! ### C6 -/

/-- C7, degenerate count: for every count `≤ 0` and every other argument
(an absent oscillator included), `generate_samples` returns the oscillator
and the output region it was given: no slot is stored to, the contents are
unchanged, and the phase equals its value before the call. -/
theorem degenerate_count (sin : K → K) (osc : Option (Oscillator K))
    (freq sample_rate volume : K) (w : Int) (buffer : Buffer K) (n : Int) (hn : n ≤ 0) :
    generate_samples sin osc freq sample_rate volume w buffer n = (osc, buffer) := by
  cases osc with
  | none => rfl
  | some o =>
    have e : n.toNat = 0 := Int.toNat_eq_zero.mpr hn
    simp [generate_samples, e, sample_loop]

/-- Witness for C7: count `-3` on the oscillator at phase 1. -/
theorem degenerate_count_witness :
    (-3 : Int) ≤ 0 ∧
    generate_samples (fun _ => (0 : ℚ)) (some { phase := 1 }) 440 44100 1 0
        (Buffer.fresh fun _ => 9) (-3) =
      (some { phase := 1 }, Buffer.fresh fun _ => 9) :=
  ⟨by decide, degenerate_count _ _ 440 44100 1 0 _ (-3) (by decide)⟩

/-! ### C8 -/

/-- C8, absent oscillator: with an absent (null) oscillator, for every
frequency, sample rate, volume, waveform selector, buffer and count, the call
is a no-op: it returns the output region it was given (no slot stored to,
contents unchanged) and no oscillator, and the function is total, so no error
is raised. -/
theorem absent_oscillator (sin : K → K) (freq sample_rate volume : K) (w : Int)
    (buffer : Buffer K) (n : Int) :
    generate_samples sin none freq sample_rate volume w buffer n = (none, buffer) :=
  rfl

/-! ### C10 -/

/-- C10, volume is a uniform linear scalar with no clamping: for every
initial phase, frequency, positive sample rate, waveform selector, count and
volume `v`, each sample written with volume `v` equals `v` times the sample
written at the same index by the same call with volume 1; with volume 0 the
sample is `0`; and a volume above 1 gives samples outside `[-1, 1]` (the
square wave with volume 2 starts with the sample `2`). -/
theorem volume_is_linear (sin : K → K) (osc : Oscillator K) (freq sample_rate volume : K)
    (w : Int) (buffer buffer1 : Buffer K) (n i : Nat) (_hsr : 0 < sample_rate) (hi : i < n) :
    (generate_samples sin (some osc) freq sample_rate volume w buffer n).2.cells i =
      volume * (generate_samples sin (some osc) freq sample_rate 1 w buffer1 n).2.cells i ∧
    (generate_samples sin (some osc) freq sample_rate 0 w buffer n).2.cells i = 0 ∧
    ((generate_samples sin (some create_oscillator) freq sample_rate 2 1 buffer 1).2.cells 0 = 2
      ∧ ¬ (|(2 : K)| ≤ 1)) := by
  have hpi := PI_pos (K := K)
  refine ⟨?_, ?_, ?_, ?_⟩
  · rw [generate_samples_cells, generate_samples_cells, if_pos (by simpa using hi),
      if_pos (by simpa using hi)]
    ring
  · rw [generate_samples_cells, if_pos (by simpa using hi)]
    simp
  · rw [generate_samples_cells, if_pos (by decide)]
    simp [wave_sample, create_oscillator, hpi]
  · norm_num

/-- Witness for C10: the saw wave of 100 Hz at 44100 samples per second with
volume 3, second sample of four. -/
theorem volume_is_linear_witness :
    (0 : ℚ) < 44100 ∧ 1 < 4 ∧
    ((generate_samples (fun _ => (0 : ℚ)) (some create_oscillator) 100 44100 3 2
        (Buffer.fresh fun _ => 0) (4 : Nat)).2.cells 1 =
      3 * (generate_samples (fun _ => (0 : ℚ)) (some create_oscillator) 100 44100 1 2
        (Buffer.fresh fun _ => 9) (4 : Nat)).2.cells 1 ∧
    (generate_samples (fun _ => (0 : ℚ)) (some create_oscillator) 100 44100 0 2
        (Buffer.fresh fun _ => 0) (4 : Nat)).2.cells 1 = 0 ∧
    ((generate_samples (fun _ => (0 : ℚ)) (some create_oscillator) 100 44100 2 1
        (Buffer.fresh fun _ => 0) 1).2.cells 0 = 2
      ∧ ¬ (|(2 : ℚ)| ≤ 1))) :=
  ⟨by norm_num, by decide,
    volume_is_linear _ create_oscillator 100 44100 3 2 _ _ 4 1 (by norm_num) (by decide)⟩

/-! ## The wrap loop with its counter -/

theorem floor_turns_of_lt (q : K) (h : q < 2 * PI) : ⌊q / (2 * PI)⌋.toNat = 0 := by
  have h2 := two_PI_pos (K := K)
  have h1 : q / (2 * PI) < 1 := (div_lt_one h2).mpr h
  have h0 : ⌊q / (2 * PI)⌋ < 1 := by
    rw [Int.floor_lt]
    simpa using h1
  omega

theorem one_le_floor_turns (q : K) (h : q ≥ 2 * PI) : 1 ≤ ⌊q / (2 * PI)⌋ := by
  have h2 := two_PI_pos (K := K)
  rw [Int.le_floor, le_div_iff₀ h2]
  simpa using h

theorem wrap_loop_steps_enough (fuel : Nat) : ∀ q : K, ⌊q / (2 * PI)⌋.toNat ≤ fuel →
    wrap_loop_steps fuel q = some (wrap_phase q, ⌊q / (2 * PI)⌋.toNat) := by
  induction fuel with
  | zero =>
    intro q hq
    have hlt : q < 2 * PI := by
      by_contra hc
      have := one_le_floor_turns q (not_lt.mp hc)
      omega
    rw [wrap_loop_steps, if_neg (not_le.mpr hlt), wrap_phase_of_lt q hlt, floor_turns_of_lt q hlt]
  | succ n ih =>
    intro q hq
    by_cases h : q ≥ 2 * PI
    · have h1 := one_le_floor_turns q h
      have hf := floor_sub_turn q
      rw [wrap_loop_steps, if_pos h, ih (q - 2 * PI) (by omega)]
      rw [wrap_phase_unfold q, if_pos h, hf]
      simp only [Option.map_some', Option.some.injEq, Prod.mk.injEq, true_and]
      omega
    · have hlt : q < 2 * PI := not_le.mp h
      rw [wrap_loop_steps, if_neg h, wrap_phase_of_lt q hlt, floor_turns_of_lt q hlt]

theorem wrap_loop_steps_short (fuel : Nat) : ∀ q : K, fuel < ⌊q / (2 * PI)⌋.toNat →
    wrap_loop_steps fuel q = none := by
  induction fuel with
  | zero =>
    intro q hq
    have h : q ≥ 2 * PI := by
      by_contra hc
      have := floor_turns_of_lt q (not_le.mp hc)
      omega
    rw [wrap_loop_steps, if_pos h]
  | succ n ih =>
    intro q hq
    have h : q ≥ 2 * PI := by
      by_contra hc
      have := floor_turns_of_lt q (not_le.mp hc)
      omega
    have hf := floor_sub_turn q
    rw [wrap_loop_steps, if_pos h, ih (q - 2 * PI) (by omega)]
    rfl

theorem wrap_loop_steps_result (fuel : Nat) (q : K) (r : K × Nat)
    (h : wrap_loop_steps fuel q = some r) : r = (wrap_phase q, ⌊q / (2 * PI)⌋.toNat) := by
  by_cases hf : ⌊q / (2 * PI)⌋.toNat ≤ fuel
  · rw [wrap_loop_steps_enough fuel q hf] at h
    exact (Option.some.inj h).symm
  · rw [wrap_loop_steps_short fuel q (by omega)] at h
    exact absurd h (by simp)

/-! ### C13 -/

/-- C15, phase evolution ignores waveform and volume: for every initial
phase, frequency, positive sample rate and count, the oscillator after
`generate_samples` is the same for any two waveform selectors (unrecognised
ones included), any two volumes and any two output regions; its phase is the
initial phase advanced `count` times by the increment
`2*PI*frequency/sampleRate`, a function of the initial phase, the frequency,
the sample rate and the count only. -/
theorem phase_ignores_waveform_and_volume (sin : K → K) (osc : Oscillator K)
    (freq sample_rate : K) (n : Int) (volume1 volume2 : K) (w1 w2 : Int)
    (buffer1 buffer2 : Buffer K) (_hsr : 0 < sample_rate) :
    (generate_samples sin (some osc) freq sample_rate volume1 w1 buffer1 n).1 =
      (generate_samples sin (some osc) freq sample_rate volume2 w2 buffer2 n).1 ∧
    (generate_samples sin (some osc) freq sample_rate volume1 w1 buffer1 n).1 =
      some { phase := phase_before_sample ((2 * PI * freq) / sample_rate) osc.phase n.toNat } := by
  rw [generate_samples_osc, generate_samples_osc]
  exact ⟨rfl, rfl⟩

/-- Witness for C15: sine with volume 1 against the unrecognised selector 7
with volume 3. -/
theorem phase_ignores_waveform_and_volume_witness :
    (0 : ℚ) < 44100 ∧
    (generate_samples (fun _ => (0 : ℚ)) (some create_oscillator) 440 44100 1 0
        (Buffer.fresh fun _ => 0) 4).1 =
      (generate_samples (fun _ => (0 : ℚ)) (some create_oscillator) 440 44100 3 7
        (Buffer.fresh fun _ => 9) 4).1 :=
  ⟨by norm_num,
    (phase_ignores_waveform_and_volume _ create_oscillator 440 44100 4 1 3 0 7 _ _
      (by norm_num)).1⟩

/-! ### C16 -/

omit [FloorRing K] in
theorem increment_nonpos (freq sample_rate : K) (hf : freq ≤ 0) (hsr : 0 < sample_rate) :
    (2 * PI * freq) / sample_rate ≤ 0 :=
  div_nonpos_of_nonpos_of_nonneg
    (mul_nonpos_of_nonneg_of_nonpos (le_of_lt two_PI_pos) hf) (le_of_lt hsr)

theorem iterate_no_wrap (inc p0 : K) (hinc : inc ≤ 0) (h1 : p0 < 2 * PI) (n : Nat) :
    (advance_phase inc)^[n] p0 = p0 + n * inc := by
  induction n with
  | zero => simp
  | succ n ih =>
    have hn : (n : K) * inc ≤ 0 := mul_nonpos_of_nonneg_of_nonpos (Nat.cast_nonneg n) hinc
    rw [Function.iterate_succ_apply', ih]
    unfold advance_phase
    rw [wrap_phase_of_lt _ (by linarith)]
    push_cast
    ring

/-- C16, no upward renormalisation: for every initial phase `p0 < 2*PI`,
every frequency `≤ 0`, sample rate `> 0` and count `n`, with
`inc = 2*PI*frequency/sampleRate ≤ 0`, the wrap loop performs no subtraction
at any sample (its test fails at once), the phase after the call is exactly
`p0 + n*inc`, and from a fresh oscillator with a negative frequency and
`n ≥ 1` the final phase is strictly negative. -/
theorem no_upward_renormalisation (sin : K → K) (p0 freq sample_rate volume : K) (w : Int)
    (buffer : Buffer K) (n : Nat) (h1 : p0 < 2 * PI) (hf : freq ≤ 0) (hsr : 0 < sample_rate) :
    (∀ i, i < n →
      wrap_loop_steps 0
          (phase_before_sample ((2 * PI * freq) / sample_rate) p0 i +
            (2 * PI * freq) / sample_rate) =
        some (phase_before_sample ((2 * PI * freq) / sample_rate) p0 i +
            (2 * PI * freq) / sample_rate, 0)) ∧
    (generate_samples sin (some { phase := p0 }) freq sample_rate volume w buffer n).1 =
      some { phase := p0 + n * ((2 * PI * freq) / sample_rate) } ∧
    (freq < 0 → 1 ≤ n →
      (generate_samples sin (some create_oscillator) freq sample_rate volume w buffer n).1 =
        some { phase := 0 + n * ((2 * PI * freq) / sample_rate) } ∧
      (0 : K) + n * ((2 * PI * freq) / sample_rate) < 0) := by
  have h2 := two_PI_pos (K := K)
  have hinc := increment_nonpos freq sample_rate hf hsr
  refine ⟨?_, ?_, ?_⟩
  · intro i _
    have hi : (i : K) * ((2 * PI * freq) / sample_rate) ≤ 0 :=
      mul_nonpos_of_nonneg_of_nonpos (Nat.cast_nonneg i) hinc
    unfold phase_before_sample
    rw [iterate_no_wrap _ p0 hinc h1 i, wrap_loop_steps, if_neg (not_le.mpr (by linarith))]
  · rw [generate_samples_osc, Int.toNat_ofNat, iterate_no_wrap _ p0 hinc h1 n]
  · intro hneg hn
    constructor
    · rw [generate_samples_osc, Int.toNat_ofNat]
      exact congrArg (fun x => some (Oscillator.mk x)) (iterate_no_wrap _ 0 hinc h2 n)
    · have hlt : (2 * PI * freq) / sample_rate < 0 :=
        div_neg_of_neg_of_pos (mul_neg_of_pos_of_neg h2 hneg) hsr
      have hn1 : (1 : K) ≤ n := by exact_mod_cast hn
      nlinarith

/-- Witness for C16: a fresh oscillator driven at frequency `-1` and sample
rate `4` (a quarter turn backwards per sample) for three samples. -/
theorem no_upward_renormalisation_witness :
    (0 : ℚ) < 2 * PI ∧ (-1 : ℚ) ≤ 0 ∧ (0 : ℚ) < 4 ∧
    (generate_samples (fun _ => (0 : ℚ)) (some { phase := 0 }) (-1) 4 1 0
        (Buffer.fresh fun _ => 0) (3 : Nat)).1 =
      some { phase := 0 + (3 : Nat) * ((2 * PI * (-1)) / 4) } :=
  ⟨by norm_num [PI], by norm_num, by norm_num,
    (no_upward_renormalisation _ 0 (-1) 4 1 0 _ 3 (by norm_num [PI]) (by norm_num)
      (by norm_num)).2.1⟩

/-! ## The code over the IEEE special values agrees with the exact reading -/

section special_values

omit [FloorRing K]

theorem ext_mul_fin (x y : K) : Ext.mul (.fin x) (.fin y) =
    if x * y = 0 then Ext.zero (decide (x < 0) != decide (y < 0)) else .fin (x * y) := rfl

theorem ext_div_fin (x y : K) : Ext.div (.fin x) (.fin y) =
    if y = 0 then Ext.signedInf x
    else if x = 0 then Ext.zero (decide (y < 0)) else .fin (x / y) := rfl

theorem ext_neg_fin (x : K) : Ext.neg (.fin x) = if x = 0 then .nzero else .fin (-x) := rfl

theorem ext_sub_fin (a b : K) : Ext.sub (.fin a) (.fin b) = .fin (a - b) := by
  unfold Ext.sub
  rw [ext_neg_fin]
  split_ifs with h
  · simp [Ext.add, h]
  · simp [Ext.add, sub_eq_add_neg]

theorem ext_two_PI : Ext.mul (.fin 2) (.fin (PI : K)) = .fin (2 * PI) := by
  have h : (2 : K) * PI ≠ 0 := ne_of_gt two_PI_pos
  rw [ext_mul_fin, if_neg h]

theorem ext_mul_two (a : K) : Ext.mul (.fin 2) (.fin a) = .fin (2 * a) := by
  rw [ext_mul_fin]
  split_ifs with h
  · have ha : a = 0 := by simpa using h
    subst ha
    simp [Ext.zero]
  · rfl

theorem ext_div_PI (p : K) : Ext.div (.fin p) (.fin (PI : K)) = .fin (p / PI) := by
  have hpi := PI_pos (K := K)
  rw [ext_div_fin, if_neg (ne_of_gt hpi)]
  split_ifs with h
  · subst h
    simp [Ext.zero, not_lt.mpr (le_of_lt hpi)]
  · rfl

theorem ext_mul_unsign (s v : K) : (Ext.mul (.fin s) (.fin v)).unsign = .fin (s * v) := by
  rw [ext_mul_fin]
  unfold Ext.zero
  split_ifs with h1 h2
  · rw [h1]; rfl
  · rw [h1]; rfl
  · rfl

theorem ext_mul_isFinite (s v : K) : (Ext.mul (.fin s) (.fin v)).isFinite = true := by
  rw [ext_mul_fin]
  unfold Ext.zero
  split_ifs <;> rfl

theorem ext_increment (freq sample_rate : K) (hsr : sample_rate ≠ 0) :
    (Ext.div (Ext.mul (Ext.mul (.fin 2) (.fin PI)) (.fin freq)) (.fin sample_rate)).unsign =
      .fin ((2 * PI * freq) / sample_rate) := by
  have h2 := two_PI_pos (K := K)
  have e : Ext.mul (Ext.fin (2 * PI)) (.fin freq) = .fin (2 * PI * freq) := by
    rw [ext_mul_fin]
    split_ifs with h
    · have hf : freq = 0 := by
        rcases mul_eq_zero.mp h with h' | h'
        · exact absurd h' (ne_of_gt h2)
        · exact h'
      subst hf
      simp [Ext.zero, not_lt.mpr (le_of_lt h2)]
    · rfl
  rw [ext_two_PI, e, ext_div_fin]
  unfold Ext.zero
  rw [if_neg hsr]
  split_ifs with h1 h2
  · rw [h1]; simp [Ext.unsign]
  · rw [h1]; simp [Ext.unsign]
  · rfl

theorem ext_add_unsign (p i : K) (e : Ext K) (h : e.unsign = .fin i) :
    Ext.add (.fin p) e = .fin (p + i) := by
  cases e with
  | fin x =>
    have hx : x = i := by simpa [Ext.unsign] using h
    subst hx
    rfl
  | nzero =>
    have hx : (0 : K) = i := by simpa [Ext.unsign] using h
    subst hx
    simp [Ext.add]
  | pinf => simp [Ext.unsign] at h
  | ninf => simp [Ext.unsign] at h
  | nan => simp [Ext.unsign] at h

theorem wave_sample_ext_fin (sin : K → K) (w : Int) (p : K) :
    wave_sample_ext sin w (.fin p) = .fin (wave_sample sin w p) := by
  unfold wave_sample_ext wave_sample
  rw [ext_div_PI, ext_mul_two, ext_sub_fin, ext_sub_fin]
  split_ifs <;> simp_all [Ext.sin, Ext.lt, Ext.add]

theorem wrap_loop_ext_fin (fuel : Nat) : ∀ q : K,
    wrap_loop_ext fuel (.fin q) = (wrap_loop_steps fuel q).map fun r => Ext.fin r.1 := by
  induction fuel with
  | zero =>
    intro q
    rw [wrap_loop_ext, ext_two_PI]
    by_cases h : q ≥ 2 * PI <;> simp [wrap_loop_steps, Ext.ge, h]
  | succ n ih =>
    intro q
    rw [wrap_loop_ext, ext_two_PI, ext_sub_fin, ih]
    by_cases h : q ≥ 2 * PI <;>
      simp [wrap_loop_steps, Ext.ge, h, Option.map_map, Function.comp_def]

end special_values

theorem wrap_loop_ext_enough (fuel : Nat) (q : K) (h : ⌊q / (2 * PI)⌋.toNat ≤ fuel) :
    wrap_loop_ext fuel (.fin q) = some (.fin (wrap_phase q)) := by
  rw [wrap_loop_ext_fin, wrap_loop_steps_enough fuel q h]
  rfl

/-- The loop over `Ext K` follows the exact loop: started on regions that
agree up to the sign of a zero, it ends with the same phase, the same store
log and regions that agree up to the sign of a zero. -/
theorem sample_loop_ext_finite (fuel : Nat) (sin : K → K) (inc volume : K) (einc : Ext K)
    (w : Int) (heinc : einc.unsign = .fin inc) (todo : Nat) :
    ∀ (i : Nat) (osc : Oscillator K) (buffer : Buffer K) (ebuffer : Buffer (Ext K)),
    (∀ k, k < todo → ⌊((advance_phase inc)^[k] osc.phase + inc) / (2 * PI)⌋.toNat ≤ fuel) →
    ebuffer.written = buffer.written →
    (∀ j, (ebuffer.cells j).unsign = .fin (buffer.cells j)) →
    ∃ out : Buffer (Ext K),
      sample_loop_ext fuel sin einc (.fin volume) w todo i { phase := .fin osc.phase } ebuffer =
        some ({ phase := .fin (sample_loop sin inc volume w todo i osc buffer).1.phase }, out) ∧
      out.written = (sample_loop sin inc volume w todo i osc buffer).2.written ∧
      ∀ j, (out.cells j).unsign =
        .fin ((sample_loop sin inc volume w todo i osc buffer).2.cells j) := by
  induction todo with
  | zero => intro i osc buffer ebuffer _ hw hc; exact ⟨ebuffer, rfl, hw, hc⟩
  | succ n ih =>
    intro i osc buffer ebuffer hfuel hw hc
    have h0 := hfuel 0 (Nat.succ_pos n)
    simp only [Function.iterate_zero, id_eq] at h0
    obtain ⟨out, h1, h2, h3⟩ := ih (i + 1) { phase := advance_phase inc osc.phase }
      (buffer.store i (wave_sample sin w osc.phase * volume))
      (ebuffer.store i (Ext.mul (wave_sample_ext sin w (.fin osc.phase)) (.fin volume)))
      (fun k hk => by
        have := hfuel (k + 1) (by omega)
        rwa [Function.iterate_succ_apply] at this)
      (by simp [Buffer.store, hw])
      (fun j => by
        by_cases hj : j = i
        · simp [Buffer.store, hj, wave_sample_ext_fin, ext_mul_unsign]
        · simp [Buffer.store, hj, hc j])
    refine ⟨out, ?_, h2, h3⟩
    simp only [sample_loop_ext, sample_loop]
    rw [ext_add_unsign _ _ _ heinc, wrap_loop_ext_enough fuel _ h0]
    exact h1

theorem bounded_turns (g : Nat → Nat) (n : Nat) : ∃ bound, ∀ k, k < n → g k ≤ bound := by
  induction n with
  | zero => exact ⟨0, fun k hk => absurd hk (Nat.not_lt_zero k)⟩
  | succ n ih =>
    obtain ⟨b, hb⟩ := ih
    refine ⟨max b (g n), fun k hk => ?_⟩
    rcases Nat.lt_succ_iff_lt_or_eq.mp hk with h | h
    · exact le_trans (hb k h) (le_max_left _ _)
    · rw [h]
      exact le_max_right _ _

/-- On finite arguments with a non-zero sample rate the reading over `Ext K`
returns, for every large enough bound on the wrap loops, what the exact
reading `generate_samples` returns: the same phase, the same store log and
the same samples up to the sign of a zero. -/
theorem generate_samples_ext_finite (sin : K → K) (osc : Oscillator K)
    (freq sample_rate volume : K) (w : Int) (buffer : Buffer K) (n : Int)
    (hsr : sample_rate ≠ 0) :
    ∃ bound, ∀ fuel, bound ≤ fuel → ∃ out : Buffer (Ext K),
      generate_samples_ext fuel sin (some { phase := .fin osc.phase }) (.fin freq)
          (.fin sample_rate) (.fin volume) w buffer.toExt n =
        some ((generate_samples sin (some osc) freq sample_rate volume w buffer n).1.map
            (fun o => { phase := Ext.fin o.phase }), out) ∧
      out.written =
        (generate_samples sin (some osc) freq sample_rate volume w buffer n).2.written ∧
      ∀ j, (out.cells j).unsign =
        .fin ((generate_samples sin (some osc) freq sample_rate volume w buffer n).2.cells j) := by
  obtain ⟨b, hb⟩ := bounded_turns
    (fun k => ⌊((advance_phase ((2 * PI * freq) / sample_rate))^[k] osc.phase +
      (2 * PI * freq) / sample_rate) / (2 * PI)⌋.toNat) n.toNat
  refine ⟨b, fun fuel hfuel => ?_⟩
  obtain ⟨out, h1, h2, h3⟩ := sample_loop_ext_finite fuel sin _ volume _ w
    (ext_increment freq sample_rate hsr) n.toNat 0 osc buffer buffer.toExt
    (fun k hk => le_trans (hb k hk) hfuel) rfl (fun j => rfl)
  refine ⟨out, ?_, h2, h3⟩
  simp only [generate_samples_ext, generate_samples]
  rw [h1]
  rfl

/-! ### C14 -/

section zero_rate

omit [FloorRing K]

theorem wrap_loop_ext_pinf (fuel : Nat) : wrap_loop_ext fuel (.pinf : Ext K) = none := by
  induction fuel with
  | zero => simp [wrap_loop_ext, ext_two_PI, Ext.ge]
  | succ n ih =>
    have e : Ext.sub (.pinf : Ext K) (.fin (2 * PI)) = .pinf := by
      have h : (2 : K) * PI ≠ 0 := ne_of_gt two_PI_pos
      simp [Ext.sub, ext_neg_fin, h, Ext.add]
    rw [wrap_loop_ext, ext_two_PI, e, ih]
    simp [Ext.ge]

theorem wrap_loop_ext_ninf (fuel : Nat) : wrap_loop_ext fuel (.ninf : Ext K) = some .ninf := by
  cases fuel <;> simp [wrap_loop_ext, ext_two_PI, Ext.ge]

theorem ext_numerator (freq : K) (hf : freq ≠ 0) :
    Ext.mul (Ext.mul (.fin 2) (.fin PI)) (.fin freq) = .fin (2 * PI * freq) := by
  have h : (2 : K) * PI * freq ≠ 0 := mul_ne_zero (ne_of_gt two_PI_pos) hf
  rw [ext_two_PI, ext_mul_fin, if_neg h]

/-- With sample rate `+0.0` and a negative frequency, or sample rate `-0.0`
and a positive frequency, the increment is `-∞`. -/
theorem increment_ninf (freq : K) (sample_rate : Ext K)
    (h : (sample_rate = .fin 0 ∧ freq < 0) ∨ (sample_rate = .nzero ∧ 0 < freq)) :
    Ext.div (Ext.mul (Ext.mul (.fin 2) (.fin PI)) (.fin freq)) sample_rate = .ninf := by
  have h2 := two_PI_pos (K := K)
  rcases h with ⟨hs, hf⟩ | ⟨hs, hf⟩
  · have hneg : 2 * PI * freq < 0 := mul_neg_of_pos_of_neg h2 hf
    rw [hs, ext_numerator freq (ne_of_lt hf), ext_div_fin]
    simp [Ext.signedInf, ne_of_lt hneg, not_lt.mpr (le_of_lt hneg)]
  · have hpos : 0 < 2 * PI * freq := mul_pos h2 hf
    rw [hs, ext_numerator freq (ne_of_gt hf)]
    simp [Ext.div, Ext.signedInf, ne_of_gt hpos, hpos, not_lt.mpr (le_of_lt hpos)]

/-- With sample rate `+0.0` and a positive frequency, or sample rate `-0.0`
and a negative frequency, the increment is `+∞`. -/
theorem increment_pinf (freq : K) (sample_rate : Ext K)
    (h : (sample_rate = .fin 0 ∧ 0 < freq) ∨ (sample_rate = .nzero ∧ freq < 0)) :
    Ext.div (Ext.mul (Ext.mul (.fin 2) (.fin PI)) (.fin freq)) sample_rate = .pinf := by
  have h2 := two_PI_pos (K := K)
  rcases h with ⟨hs, hf⟩ | ⟨hs, hf⟩
  · have hpos : 0 < 2 * PI * freq := mul_pos h2 hf
    rw [hs, ext_numerator freq (ne_of_gt hf), ext_div_fin]
    simp [Ext.signedInf, ne_of_gt hpos, hpos]
  · have hneg : 2 * PI * freq < 0 := mul_neg_of_pos_of_neg h2 hf
    rw [hs, ext_numerator freq (ne_of_lt hf)]
    simp [Ext.div, Ext.signedInf, ne_of_lt hneg, hneg]

/-- With a zero sample rate and an increment of `+∞` (sample rate `+0.0` and a
positive frequency, or `-0.0` and a negative one) the phase becomes `+∞` after
the first sample and the wrap loop never ends: for every bound on the
subtractions the call with count `≥ 1` does not return. -/
theorem zero_sample_rate_hangs (fuel : Nat) (sin : K → K) (p0 freq : K)
    (sample_rate volume : Ext K) (w : Int) (buffer : Buffer (Ext K)) (n : Nat)
    (h : (sample_rate = .fin 0 ∧ 0 < freq) ∨ (sample_rate = .nzero ∧ freq < 0))
    (hn : 1 ≤ n) :
    generate_samples_ext fuel sin (some { phase := .fin p0 }) (.fin freq) sample_rate volume w
      buffer n = none := by
  obtain ⟨m, rfl⟩ : ∃ m, n = m + 1 := ⟨n - 1, by omega⟩
  have ea : Ext.add (.fin p0) (.pinf : Ext K) = .pinf := rfl
  simp only [generate_samples_ext, Int.toNat_ofNat, sample_loop_ext]
  rw [increment_pinf freq sample_rate h, ea, wrap_loop_ext_pinf]
  rfl

theorem sample_loop_ext_ninf (fuel : Nat) (sin : K → K) (volume : Ext K) (w : Int)
    (todo : Nat) : ∀ (i : Nat) (buffer : Buffer (Ext K)),
    ∃ out : Buffer (Ext K),
      sample_loop_ext fuel sin .ninf volume w todo i { phase := .ninf } buffer =
        some ({ phase := .ninf }, out) ∧
      out.written = buffer.written ++ List.range' i todo ∧
      ∀ j, out.cells j =
        if i ≤ j ∧ j < i + todo then Ext.mul (wave_sample_ext sin w .ninf) volume
        else buffer.cells j := by
  induction todo with
  | zero =>
    intro i buffer
    refine ⟨buffer, rfl, by simp, fun j => ?_⟩
    have : ¬ (i ≤ j ∧ j < i + 0) := by omega
    rw [if_neg this]
  | succ n ih =>
    intro i buffer
    obtain ⟨out, h1, h2, h3⟩ :=
      ih (i + 1) (buffer.store i (Ext.mul (wave_sample_ext sin w .ninf) volume))
    have ea : Ext.add (.ninf : Ext K) .ninf = .ninf := rfl
    refine ⟨out, ?_, ?_, fun j => ?_⟩
    · simp only [sample_loop_ext]
      rw [ea, wrap_loop_ext_ninf]
      exact h1
    · rw [h2]
      simp [Buffer.store, List.range'_succ]
    · rw [h3 j]
      by_cases hj : j = i
      · subst hj
        have c1 : ¬ (j + 1 ≤ j ∧ j < j + 1 + n) := by omega
        have c2 : j ≤ j ∧ j < j + (n + 1) := by omega
        simp [c1, c2, Buffer.store]
      · by_cases hc : i + 1 ≤ j ∧ j < i + 1 + n
        · have c2 : i ≤ j ∧ j < i + (n + 1) := by omega
          rw [if_pos hc, if_pos c2]
        · have c2 : ¬ (i ≤ j ∧ j < i + (n + 1)) := by omega
          rw [if_neg hc, if_neg c2]
          simp [Buffer.store, hj]

theorem wave_sample_ext_ninf (sin : K → K) (w : Int) :
    wave_sample_ext sin w (.ninf : Ext K) =
      if w = 0 then .nan else if w = 1 then .fin 1
      else if w = 2 then .ninf else if w = 3 then .ninf else .fin 0 := by
  have hpi : (0 : K) ≤ PI := le_of_lt PI_pos
  have e2 : Ext.mul (.fin 2) (.ninf : Ext K) = .ninf := by
    norm_num [Ext.mul, Ext.signedInf]
  have ed : Ext.div (.ninf : Ext K) (.fin PI) = .ninf := by
    simp [Ext.div, hpi]
  have el : Ext.lt (.ninf : Ext K) (.fin PI) = true := rfl
  have e1 : Ext.sub (.ninf : Ext K) (.fin 1) = .ninf := by
    simp [Ext.sub, ext_neg_fin, Ext.add]
  have e3 : Ext.add (.fin (-1)) (.ninf : Ext K) = .ninf := rfl
  unfold wave_sample_ext
  rw [ed, e2, el, e1, e3]
  simp only [if_true]
  split_ifs <;> simp [Ext.sin]

theorem mul_ninf_fin (v : K) : Ext.isFinite (Ext.mul (.ninf : Ext K) (.fin v)) = false := by
  simp only [Ext.mul]
  unfold Ext.signedInf
  split_ifs <;> rfl

theorem ext_one_mul (v : K) : Ext.mul (.fin 1) (.fin v) = .fin v := by
  rw [ext_mul_fin]
  split_ifs with h
  · have hv : v = 0 := by simpa using h
    subst hv
    simp [Ext.zero]
  · rw [one_mul]

/-- C14, zero sample rate, as amended: read over the IEEE special values,
for a zero sample rate whose increment is `-∞` (sample rate `+0.0` with a
frequency `< 0`, or sample rate `-0.0` with a frequency `> 0`), every starting
phase in `[0, 2*PI)`, every finite volume, every waveform selector and every
count `n ≥ 1`, `generate_samples` returns (whatever the bound on the wrap
loops) after storing to the slots `0, ..., n-1` and leaves the phase at `-∞`;
sample 0 is the finite value computed from the starting phase, and every
later sample is non-finite for sine, saw and triangle, equals `+volume` for
square and is a zero for an unrecognised selector. -/
theorem zero_sample_rate (fuel : Nat) (sin : K → K) (p0 freq volume : K)
    (sample_rate : Ext K) (w : Int) (buffer : Buffer (Ext K)) (n : Nat)
    (hzero : (sample_rate = .fin 0 ∧ freq < 0) ∨ (sample_rate = .nzero ∧ 0 < freq))
    (_h0 : 0 ≤ p0) (_h1 : p0 < 2 * PI) (hn : 1 ≤ n) :
    ∃ out : Buffer (Ext K),
      generate_samples_ext fuel sin (some { phase := .fin p0 }) (.fin freq) sample_rate
          (.fin volume) w buffer n = some (some { phase := .ninf }, out) ∧
      out.written = buffer.written ++ List.range n ∧
      Ext.isFinite (out.cells 0) = true ∧
      (out.cells 0).unsign = .fin (wave_sample sin w p0 * volume) ∧
      ∀ i, 1 ≤ i → i < n →
        ((w = 0 ∨ w = 2 ∨ w = 3) → Ext.isFinite (out.cells i) = false) ∧
        (w = 1 → out.cells i = .fin volume) ∧
        (w ≠ 0 → w ≠ 1 → w ≠ 2 → w ≠ 3 → (out.cells i).unsign = .fin 0) := by
  obtain ⟨m, rfl⟩ : ∃ m, n = m + 1 := ⟨n - 1, by omega⟩
  have ea : Ext.add (.fin p0) (.ninf : Ext K) = .ninf := rfl
  obtain ⟨out, h1, hw, hc⟩ := sample_loop_ext_ninf fuel sin (.fin volume) w m 1
    (buffer.store 0 (Ext.mul (wave_sample_ext sin w (.fin p0)) (.fin volume)))
  have hc0 : out.cells 0 = Ext.mul (.fin (wave_sample sin w p0)) (.fin volume) := by
    rw [hc 0, if_neg (by omega), wave_sample_ext_fin]
    simp [Buffer.store]
  refine ⟨out, ?_, ?_, ?_, ?_, ?_⟩
  · simp only [generate_samples_ext, Int.toNat_ofNat, sample_loop_ext]
    rw [increment_ninf freq sample_rate hzero, ea, wrap_loop_ext_ninf]
    simp only [zero_add]
    rw [h1]
    rfl
  · rw [hw]
    simp [Buffer.store, List.range_eq_range', List.range'_succ]
  · rw [hc0, ext_mul_isFinite]
  · rw [hc0, ext_mul_unsign]
  · intro i hi1 hin
    rw [hc i, if_pos (by omega), wave_sample_ext_ninf]
    refine ⟨?_, ?_, ?_⟩
    · rintro (h | h | h) <;> subst h
      · rfl
      · exact mul_ninf_fin volume
      · exact mul_ninf_fin volume
    · intro h
      subst h
      simp [ext_one_mul]
    · intro h0 h1 h2 h3
      simp [h0, h1, h2, h3, ext_mul_unsign]

end zero_rate

/-- Witness for C14: frequency `-440`, sample rate `+0.0`, volume 1, the saw
wave, three samples from a fresh phase. -/
theorem zero_sample_rate_witness :
    (((.fin 0 : Ext ℚ) = .fin 0 ∧ (-440 : ℚ) < 0) ∨
      ((.fin 0 : Ext ℚ) = .nzero ∧ (0 : ℚ) < -440)) ∧
    (0 : ℚ) ≤ 0 ∧ (0 : ℚ) < 2 * PI ∧ 1 ≤ 3 ∧
    ∃ out : Buffer (Ext ℚ),
      generate_samples_ext 0 (fun _ => (0 : ℚ)) (some { phase := .fin 0 }) (.fin (-440))
          (.fin 0) (.fin 1) 2 (Buffer.fresh fun _ => .fin 0) (3 : Nat) =
        some (some { phase := .ninf }, out) ∧
      out.written = (Buffer.fresh fun _ => (.fin 0 : Ext ℚ)).written ++ List.range 3 ∧
      Ext.isFinite (out.cells 0) = true ∧
      (out.cells 0).unsign = .fin (wave_sample (fun _ => (0 : ℚ)) 2 0 * 1) ∧
      ∀ i, 1 ≤ i → i < 3 →
        (((2 : Int) = 0 ∨ (2 : Int) = 2 ∨ (2 : Int) = 3) → Ext.isFinite (out.cells i) = false) ∧
        ((2 : Int) = 1 → out.cells i = .fin 1) ∧
        ((2 : Int) ≠ 0 → (2 : Int) ≠ 1 → (2 : Int) ≠ 2 → (2 : Int) ≠ 3 →
          (out.cells i).unsign = .fin 0) :=
  ⟨Or.inl ⟨rfl, by norm_num⟩, le_refl _, by norm_num [PI], by decide,
    zero_sample_rate 0 _ 0 (-440) 1 (.fin 0) 2 _ 3 (Or.inl ⟨rfl, by norm_num⟩) (le_refl _)
      (by norm_num [PI]) (by decide)⟩

/-- Counterexample to C14 as stated: with sample rate `+0.0`, frequency `-440`
(non-zero), volume 1 and count 2 on a fresh oscillator, the square wave call
returns and both samples written are finite (they are `1`). -/
theorem zero_sample_rate_counterexample :
    (-440 : ℚ) ≠ 0 ∧
    (generate_samples_ext 0 (fun _ => (0 : ℚ)) (some { phase := .fin 0 }) (.fin (-440))
        (.fin 0) (.fin 1) 1 (Buffer.fresh fun _ => .fin 0) 2).map
      (fun r => (r.2.take 2).map Ext.isFinite) = some [true, true] := by
  refine ⟨by norm_num, ?_⟩
  norm_num [generate_samples_ext, sample_loop_ext, wave_sample_ext, wrap_loop_ext, Ext.div,
    Ext.mul, Ext.add, Ext.sub, Ext.neg, Ext.lt, Ext.ge, Ext.signedInf, Ext.isFinite, Ext.zero,
    Buffer.take, Buffer.store, Buffer.fresh, List.range, List.range.loop, PI]

/-! ## Properties of the rounding -/

theorem log2_fuel_eq (fuel : Nat) : ∀ n, n ≤ fuel → log2_fuel fuel n = Nat.log 2 n := by
  induction fuel with
  | zero =>
    intro n hn
    have : n = 0 := by omega
    subst this
    simp [log2_fuel]
  | succ f ih =>
    intro n hn
    by_cases h : n < 2
    · rw [log2_fuel, if_pos h, Nat.log_of_lt h]
    · rw [log2_fuel, if_neg h, Nat.log_of_one_lt_of_le (by decide) (by omega), ih (n / 2) (by omega)]

theorem clog2_fuel_eq (fuel : Nat) : ∀ n, n ≤ fuel → clog2_fuel fuel n = Nat.clog 2 n := by
  induction fuel with
  | zero =>
    intro n hn
    have : n = 0 := by omega
    subst this
    simp [clog2_fuel]
  | succ f ih =>
    intro n hn
    by_cases h : n < 2
    · rw [clog2_fuel, if_pos h, Nat.clog_of_right_le_one (by omega)]
    · have e : n + 2 - 1 = n + 1 := by omega
      rw [clog2_fuel, if_neg h, Nat.clog_of_two_le (by decide) (by omega),
        ih ((n + 1) / 2) (by omega), e]

theorem binary_exponent_eq (x : ℚ) : binary_exponent x = Int.log 2 x := by
  unfold binary_exponent Int.log
  rw [log2_fuel_eq _ _ le_rfl, clog2_fuel_eq _ _ le_rfl]

theorem two_zpow_pos (e : ℤ) : (0 : ℚ) < 2 ^ e := zpow_pos (by norm_num) e

theorem ulp_pos (mant : Nat) (emin : ℤ) (x : ℚ) : 0 < ulp mant emin x := two_zpow_pos _

theorem exponent_le (x : ℚ) (hx : 0 < x) : (2 : ℚ) ^ binary_exponent x ≤ x := by
  rw [binary_exponent_eq]
  have h := Int.zpow_log_le_self (b := 2) (r := x) (by decide) hx
  simpa using h

theorem lt_exponent_succ (x : ℚ) : x < (2 : ℚ) ^ (binary_exponent x + 1) := by
  rw [binary_exponent_eq]
  have h := Int.lt_zpow_succ_log_self (b := 2) (by decide) x
  simpa using h

theorem exponent_mono (x y : ℚ) (hx : 0 < x) (h : x ≤ y) :
    binary_exponent x ≤ binary_exponent y := by
  rw [binary_exponent_eq, binary_exponent_eq]
  exact Int.log_mono_right hx h

theorem exponent_lt_of_lt (x : ℚ) (e : ℤ) (hx : 0 < x) (h : x < 2 ^ e) :
    binary_exponent x < e := by
  rw [binary_exponent_eq]
  apply (Int.lt_zpow_iff_log_lt (b := 2) (by decide) hx).mp
  simpa using h

theorem le_exponent_of_le (x : ℚ) (e : ℤ) (hx : 0 < x) (h : 2 ^ e ≤ x) :
    e ≤ binary_exponent x := by
  rw [binary_exponent_eq]
  apply (Int.zpow_le_iff_le_log (b := 2) (by decide) hx).mp
  simpa using h

/-! ### Rounding to an integer -/

theorem round_half_even_cases (z : ℚ) :
    round_half_even z = ⌊z⌋ ∨ (round_half_even z = ⌊z⌋ + 1 ∧ 1 / 2 ≤ z - ⌊z⌋) := by
  unfold round_half_even
  split_ifs with h1 h2 h3
  · exact Or.inl rfl
  · exact Or.inr ⟨rfl, le_of_lt h2⟩
  · exact Or.inl rfl
  · exact Or.inr ⟨rfl, not_lt.mp h1⟩

theorem le_round_half_even (z : ℚ) (n : ℤ) (h : (n : ℚ) ≤ z) : n ≤ round_half_even z := by
  have hf : n ≤ ⌊z⌋ := Int.le_floor.mpr h
  rcases round_half_even_cases z with h1 | ⟨h1, _⟩ <;> omega

theorem round_half_even_le (z : ℚ) (n : ℤ) (h : z ≤ (n : ℚ)) : round_half_even z ≤ n := by
  have hf : ⌊z⌋ ≤ n := by
    have := Int.floor_le z
    exact_mod_cast (Int.floor_le z).trans h |> fun h' => Int.cast_le.mp h'
  rcases round_half_even_cases z with h1 | ⟨h1, h2⟩
  · omega
  · have hne : ⌊z⌋ ≠ n := by
      intro he
      have : z - ⌊z⌋ ≤ 0 := by rw [he]; linarith
      linarith
    omega

theorem round_half_even_error (z : ℚ) : |(round_half_even z : ℚ) - z| ≤ 1 / 2 := by
  have h0 := Int.floor_le z
  have h1 := Int.lt_floor_add_one z
  unfold round_half_even
  split_ifs with h1 h2 h3 <;> rw [abs_le] <;> push_cast <;> constructor <;> linarith

theorem round_half_even_int (n : ℤ) : round_half_even (n : ℚ) = n := by
  unfold round_half_even
  simp

theorem round_half_even_neg (z : ℚ) : round_half_even (-z) = -round_half_even z := by
  by_cases hz : (⌊z⌋ : ℚ) = z
  · rw [← hz, ← Int.cast_neg, round_half_even_int, round_half_even_int]
  · have h0 := Int.floor_le z
    have hlt : (⌊z⌋ : ℚ) < z := lt_of_le_of_ne h0 hz
    have h1 := Int.lt_floor_add_one z
    have hf : ⌊-z⌋ = -⌊z⌋ - 1 := by
      rw [Int.floor_eq_iff]
      push_cast
      constructor <;> linarith
    unfold round_half_even
    rw [hf]
    push_cast
    split_ifs <;> first | omega | (exfalso; linarith)

/-! ### Rounding to a binary format -/

section rounding

variable (mant : Nat) (emin : ℤ)

theorem round_binary_nonneg (x : ℚ) (h : 0 ≤ x) : 0 ≤ round_binary mant emin x := by
  unfold round_binary
  have hu := ulp_pos mant emin x
  have : (0 : ℤ) ≤ round_half_even (x / ulp mant emin x) :=
    le_round_half_even _ 0 (by simpa using div_nonneg h (le_of_lt hu))
  exact mul_nonneg (by exact_mod_cast this) (le_of_lt hu)

theorem round_binary_neg (x : ℚ) : round_binary mant emin (-x) = -round_binary mant emin x := by
  unfold round_binary ulp
  rw [abs_neg, neg_div, round_half_even_neg]
  push_cast
  ring

theorem round_binary_nonpos (x : ℚ) (h : x ≤ 0) : round_binary mant emin x ≤ 0 := by
  have := round_binary_nonneg mant emin (-x) (by linarith)
  rw [round_binary_neg] at this
  linarith

theorem round_binary_zero : round_binary mant emin 0 = 0 :=
  le_antisymm (round_binary_nonpos mant emin 0 le_rfl) (round_binary_nonneg mant emin 0 le_rfl)

/-- The rounding error is at most half a unit in the last place. -/
theorem round_binary_error (x : ℚ) :
    |round_binary mant emin x - x| ≤ ulp mant emin x / 2 := by
  have hu := ulp_pos mant emin x
  have h := round_half_even_error (x / ulp mant emin x)
  have e : round_binary mant emin x - x =
      ((round_half_even (x / ulp mant emin x) : ℚ) - x / ulp mant emin x) * ulp mant emin x := by
    unfold round_binary
    field_simp
  rw [e, abs_mul, abs_of_pos hu]
  calc |(round_half_even (x / ulp mant emin x) : ℚ) - x / ulp mant emin x| * ulp mant emin x
      ≤ 1 / 2 * ulp mant emin x := mul_le_mul_of_nonneg_right h (le_of_lt hu)
    _ = ulp mant emin x / 2 := by ring

/-- Below `2^(e+1)`, with `e` a normal exponent, the unit in the last place is
at most `2^(e - mant)`. -/
theorem ulp_le (x : ℚ) (e : ℤ) (he : emin ≤ e) (he0 : 0 ≤ e) (hx : |x| < 2 ^ (e + 1)) :
    ulp mant emin x ≤ 2 ^ (e - mant) := by
  unfold ulp
  apply zpow_le_zpow_right₀ (by norm_num)
  have : binary_exponent |x| ≤ e := by
    rcases eq_or_lt_of_le (abs_nonneg x) with h0 | h0
    · rw [← h0, binary_exponent_eq, Int.log_zero_right]
      exact he0
    · have := exponent_lt_of_lt |x| (e + 1) h0 hx
      omega
  have := max_le this he
  omega

theorem zpow_top (c : ℤ) : (2 : ℚ) ^ (c + 1) = (((2 : ℤ) ^ (mant + 1) : ℤ) : ℚ) * 2 ^ (c - mant) := by
  push_cast
  rw [← zpow_natCast, ← zpow_add₀ (by norm_num)]
  congr 1
  push_cast
  ring

theorem zpow_bottom (c : ℤ) : (2 : ℚ) ^ c = (((2 : ℤ) ^ mant : ℤ) : ℚ) * 2 ^ (c - mant) := by
  push_cast
  rw [← zpow_natCast, ← zpow_add₀ (by norm_num)]
  congr 1
  ring

/-- A representable number is an integer multiple of its unit in the last
place. -/
theorem representable_multiple (y : ℚ) (hy : round_binary mant emin y = y) :
    (round_half_even (y / ulp mant emin y) : ℚ) = y / ulp mant emin y := by
  have hu := ulp_pos mant emin y
  unfold round_binary at hy
  field_simp
  exact hy

theorem round_binary_le_same_ulp (x y : ℚ) (hu : ulp mant emin x = ulp mant emin y)
    (hy : round_binary mant emin y = y) (h : x ≤ y) : round_binary mant emin x ≤ y := by
  have hpos := ulp_pos mant emin y
  have hm := representable_multiple mant emin y hy
  have hle : round_half_even (x / ulp mant emin y) ≤ round_half_even (y / ulp mant emin y) := by
    apply round_half_even_le
    rw [hm]
    exact div_le_div_of_nonneg_right h (le_of_lt hpos)
  have hle' : (round_half_even (x / ulp mant emin y) : ℚ) ≤ y / ulp mant emin y := by
    rw [← hm]
    exact_mod_cast hle
  unfold round_binary
  rw [hu]
  calc (round_half_even (x / ulp mant emin y) : ℚ) * ulp mant emin y
      ≤ y / ulp mant emin y * ulp mant emin y := mul_le_mul_of_nonneg_right hle' (le_of_lt hpos)
    _ = y := by field_simp

/-- Rounding does not leave the binade upwards. -/
theorem round_binary_le_top (x : ℚ) :
    round_binary mant emin x ≤ 2 ^ (max (binary_exponent |x|) emin + 1) := by
  have hpos := ulp_pos mant emin x
  have hx : x < 2 ^ (max (binary_exponent |x|) emin + 1) :=
    calc x ≤ |x| := le_abs_self x
      _ < 2 ^ (binary_exponent |x| + 1) := lt_exponent_succ _
      _ ≤ 2 ^ (max (binary_exponent |x|) emin + 1) :=
        zpow_le_zpow_right₀ (by norm_num) (by have := le_max_left (binary_exponent |x|) emin; omega)
  rw [zpow_top mant] at hx ⊢
  have hle : round_half_even (x / ulp mant emin x) ≤ (2 : ℤ) ^ (mant + 1) := by
    apply round_half_even_le
    rw [div_le_iff₀ hpos]
    exact le_of_lt hx
  unfold round_binary
  exact mul_le_mul_of_nonneg_right (by exact_mod_cast hle) (le_of_lt hpos)

/-- Rounding a negative number of a normal binade does not leave the binade
towards zero. -/
theorem round_binary_le_bottom (x : ℚ) (hx : x < 0) (he : emin ≤ binary_exponent |x|) :
    round_binary mant emin x ≤ -2 ^ binary_exponent |x| := by
  have hpos := ulp_pos mant emin x
  have habs : (0 : ℚ) < |x| := abs_pos.mpr (ne_of_lt hx)
  have hb := exponent_le |x| habs
  have hax : |x| = -x := abs_of_neg hx
  have hu : ulp mant emin x = 2 ^ (binary_exponent |x| - mant) := by
    unfold ulp
    rw [max_eq_left he]
  rw [zpow_bottom mant, ← hu] at hb ⊢
  have hle : round_half_even (x / ulp mant emin x) ≤ -(2 : ℤ) ^ mant := by
    apply round_half_even_le
    rw [div_le_iff₀ hpos]
    push_cast at hb ⊢
    linarith
  unfold round_binary
  have := mul_le_mul_of_nonneg_right (show (round_half_even (x / ulp mant emin x) : ℚ) ≤
    ((-(2 : ℤ) ^ mant : ℤ) : ℚ) by exact_mod_cast hle) (le_of_lt hpos)
  push_cast at this ⊢
  linarith

/-- Rounding is monotone against a representable number: a value at most `y`
rounds to at most `y`. -/
theorem round_binary_le (x y : ℚ) (hy : round_binary mant emin y = y) (h : x ≤ y) :
    round_binary mant emin x ≤ y := by
  by_cases hc : max (binary_exponent |x|) emin = max (binary_exponent |y|) emin
  · exact round_binary_le_same_ulp mant emin x y (by unfold ulp; rw [hc]) hy h
  · rcases le_or_lt x 0 with hx0 | hx0
    · rcases le_or_lt 0 y with hy0 | hy0
      · exact le_trans (round_binary_nonpos mant emin x hx0) hy0
      · have hxneg : x < 0 := lt_of_le_of_lt h hy0
        have hay : (0 : ℚ) < |y| := abs_pos.mpr (ne_of_lt hy0)
        have hmono := exponent_mono |y| |x| hay (by
          rw [abs_of_neg hy0, abs_of_neg hxneg]; linarith)
        have hlt : binary_exponent |y| < binary_exponent |x| ∧ emin < binary_exponent |x| := by
          rcases le_total (binary_exponent |x|) emin with h1 | h1
          · rw [max_eq_right h1, max_eq_right (le_trans hmono h1)] at hc
            exact absurd rfl hc
          · rcases le_total (binary_exponent |y|) emin with h2 | h2
            · rw [max_eq_left h1, max_eq_right h2] at hc
              have : binary_exponent |x| ≠ emin := hc
              omega
            · rw [max_eq_left h1, max_eq_left h2] at hc
              omega
        have h1 := round_binary_le_bottom mant emin x hxneg (le_of_lt hlt.2)
        have h2 := lt_exponent_succ |y|
        have h3 : (2 : ℚ) ^ (binary_exponent |y| + 1) ≤ 2 ^ binary_exponent |x| :=
          zpow_le_zpow_right₀ (by norm_num) (by omega)
        have hay' : |y| = -y := abs_of_neg hy0
        linarith
    · have hy0 : 0 < y := lt_of_lt_of_le hx0 h
      have hax : (0 : ℚ) < |x| := abs_pos.mpr (ne_of_gt hx0)
      have hmono := exponent_mono |x| |y| hax (by
        rw [abs_of_pos hy0, abs_of_pos hx0]; exact h)
      have hlt : max (binary_exponent |x|) emin < binary_exponent |y| := by
        rcases le_total (binary_exponent |y|) emin with h1 | h1
        · rw [max_eq_right h1, max_eq_right (le_trans hmono h1)] at hc
          exact absurd rfl hc
        · rcases le_total (binary_exponent |x|) emin with h2 | h2
          · rw [max_eq_right h2, max_eq_left h1] at hc
            rw [max_eq_right h2]
            have : emin ≠ binary_exponent |y| := hc
            omega
          · rw [max_eq_left h2, max_eq_left h1] at hc
            rw [max_eq_left h2]
            omega
      have h1 := round_binary_le_top mant emin x
      have h2 := exponent_le |y| (abs_pos.mpr (ne_of_gt hy0))
      have h3 : (2 : ℚ) ^ (max (binary_exponent |x|) emin + 1) ≤ 2 ^ binary_exponent |y| :=
        zpow_le_zpow_right₀ (by norm_num) (by omega)
      have hay' : |y| = y := abs_of_pos hy0
      linarith

/-- A value at least the representable `y` rounds to at least `y`. -/
theorem le_round_binary (x y : ℚ) (hy : round_binary mant emin y = y) (h : y ≤ x) :
    y ≤ round_binary mant emin x := by
  have h1 := round_binary_le mant emin (-x) (-y) (by rw [round_binary_neg, hy]) (by linarith)
  rw [round_binary_neg] at h1
  linarith

end rounding

/-! ## The rounded reading -/

theorem PI_double_eq : PI_double = to_double PI := by
  have e : (PI : ℚ) = 314159265358979323846 / 100000000000000000000 := by
    unfold PI
    norm_num
  rw [e]
  decide!

theorem two_PI_double_eq : two_PI_double = 884279719003555 / 140737488355328 := by decide!

theorem two_PI_double_eq_two_mul : two_PI_double = 2 * PI_double := by decide!

theorem two_PI_double_gt : (6 : ℚ) < two_PI_double := by
  rw [two_PI_double_eq]; norm_num

theorem two_PI_double_lt : two_PI_double < 7 := by
  rw [two_PI_double_eq]; norm_num

theorem to_double_one : to_double 1 = 1 := by decide!
theorem to_double_neg_one : to_double (-1) = -1 := by decide!
theorem to_double_two : to_double 2 = 2 := by decide!
theorem to_float_one : to_float 1 = 1 := by decide!
theorem to_float_neg_one : to_float (-1) = -1 := by decide!

/-- In binary64 a value below 16 is rounded with an error of at most `2^-50`. -/
theorem to_double_error_16 (x : ℚ) (h : |x| < 16) : |to_double x - x| ≤ 1 / 2 ^ 50 := by
  have h1 := round_binary_error 52 (-1022) x
  have h2 := ulp_le 52 (-1022) x 3 (by norm_num) (by norm_num) (by norm_num; exact h)
  have e : (2 : ℚ) ^ ((3 : ℤ) - (52 : ℕ)) = 1 / 2 ^ 49 := by norm_num [zpow_neg]
  rw [e] at h2
  unfold to_double
  have : ulp 52 (-1022) x / 2 ≤ 1 / 2 ^ 50 := by
    have : (1 : ℚ) / 2 ^ 50 = 1 / 2 ^ 49 / 2 := by norm_num
    rw [this]
    linarith
  linarith

/-- In binary64 a value below `2^56` is rounded with an error of at most 4. -/
theorem to_double_error_56 (x : ℚ) (h : |x| < 2 ^ 56) : |to_double x - x| ≤ 4 := by
  have h1 := round_binary_error 52 (-1022) x
  have h2 := ulp_le 52 (-1022) x 55 (by norm_num) (by norm_num) (by norm_num; exact h)
  have e : (2 : ℚ) ^ ((55 : ℤ) - (52 : ℕ)) = 8 := by norm_num
  rw [e] at h2
  unfold to_double
  linarith

theorem to_double_nonneg (x : ℚ) (h : 0 ≤ x) : 0 ≤ to_double x :=
  round_binary_nonneg 52 (-1022) x h

/-! ### The loops of the rounded reading -/

theorem wrap_loop_fp_of_lt (fuel : Nat) (q : ℚ) (h : q < two_PI_double) :
    wrap_loop_fp fuel q = some (q, 0) := by
  cases fuel <;> simp [wrap_loop_fp, not_le.mpr h]

theorem wrap_loop_fp_succ (fuel : Nat) (q : ℚ) (h : q ≥ two_PI_double) :
    wrap_loop_fp (fuel + 1) q =
      (wrap_loop_fp fuel (to_double (q - two_PI_double))).map fun r => (r.1, r.2 + 1) := by
  rw [wrap_loop_fp, if_pos h]

theorem wrap_loop_fp_mono (fuel : Nat) : ∀ (q : ℚ) (r : ℚ × Nat),
    wrap_loop_fp fuel q = some r → wrap_loop_fp (fuel + 1) q = some r := by
  induction fuel with
  | zero =>
    intro q r h
    by_cases hq : q ≥ two_PI_double
    · simp [wrap_loop_fp, hq] at h
    · rw [wrap_loop_fp_of_lt _ q (not_le.mp hq)] at h ⊢
      exact h
  | succ f ih =>
    intro q r h
    by_cases hq : q ≥ two_PI_double
    · rw [wrap_loop_fp_succ _ q hq] at h ⊢
      rcases hw : wrap_loop_fp f (to_double (q - two_PI_double)) with _ | r1
      · rw [hw] at h; simp at h
      · rw [hw] at h
        rw [ih _ r1 hw]
        exact h
    · rw [wrap_loop_fp_of_lt _ q (not_le.mp hq)] at h ⊢
      exact h

theorem wrap_loop_fp_mono_le (fuel fuel1 : Nat) (hle : fuel ≤ fuel1) (q : ℚ) (r : ℚ × Nat)
    (h : wrap_loop_fp fuel q = some r) : wrap_loop_fp fuel1 q = some r := by
  induction fuel1 with
  | zero =>
    have : fuel = 0 := by omega
    subst this
    exact h
  | succ f ih =>
    rcases Nat.lt_or_ge fuel (f + 1) with h1 | h1
    · exact wrap_loop_fp_mono f q r (ih (by omega))
    · have : fuel = f + 1 := by omega
      subst this
      exact h

theorem advance_phase_fp_mono_le (fuel fuel1 : Nat) (hle : fuel ≤ fuel1) (inc p q : ℚ)
    (h : advance_phase_fp fuel inc p = some q) : advance_phase_fp fuel1 inc p = some q := by
  unfold advance_phase_fp at h ⊢
  rcases hw : wrap_loop_fp fuel (to_double (p + inc)) with _ | r
  · rw [hw] at h; simp at h
  · rw [hw] at h
    rw [wrap_loop_fp_mono_le fuel fuel1 hle _ r hw]
    exact h

theorem phase_fp_succ (fuel : Nat) (inc : ℚ) (n : Nat) (p p1 : ℚ)
    (h : advance_phase_fp fuel inc p = some p1) :
    phase_fp fuel inc (n + 1) p = phase_fp fuel inc n p1 := by
  simp only [phase_fp, h]

/-- The phase the sample loop ends with is the starting phase advanced `n`
times. -/
theorem sample_loop_fp_phase (fuel : Nat) (sin : ℚ → ℚ) (inc v : ℚ) (w : Int) (n : Nat) :
    ∀ (i : Nat) (osc : Oscillator ℚ) (buffer : Buffer ℚ),
    (sample_loop_fp fuel sin inc v w n i osc buffer).map (fun r => r.1.phase) =
      phase_fp fuel inc n osc.phase := by
  induction n with
  | zero => intro i osc buffer; rfl
  | succ n ih =>
    intro i osc buffer
    rcases ha : advance_phase_fp fuel inc osc.phase with _ | p1
    · simp [sample_loop_fp, phase_fp, ha]
    · simp only [sample_loop_fp, phase_fp, ha]
      exact ih _ _ _

theorem sample_loop_fp_frame (fuel : Nat) (sin : ℚ → ℚ) (inc v : ℚ) (w : Int) (n : Nat) :
    ∀ (i : Nat) (osc : Oscillator ℚ) (buffer : Buffer ℚ) (r : Oscillator ℚ × Buffer ℚ),
    sample_loop_fp fuel sin inc v w n i osc buffer = some r →
    r.2.written = buffer.written ++ List.range' i n ∧
    ∀ j, (j < i ∨ i + n ≤ j) → r.2.cells j = buffer.cells j := by
  induction n with
  | zero =>
    intro i osc buffer r h
    simp only [sample_loop_fp, Option.some.injEq] at h
    subst h
    simp
  | succ n ih =>
    intro i osc buffer r h
    rcases ha : advance_phase_fp fuel inc osc.phase with _ | p1
    · simp [sample_loop_fp, ha] at h
    · simp only [sample_loop_fp, ha] at h
      obtain ⟨h1, h2⟩ := ih _ _ _ r h
      refine ⟨?_, fun j hj => ?_⟩
      · rw [h1]
        simp [Buffer.store, List.range'_succ]
      · rw [h2 j (by omega)]
        have : j ≠ i := by omega
        simp [Buffer.store, this]

/-- Sample `k` of a call is the waveform value at the phase before sample `k`,
times the volume, each rounded to `float`. -/
theorem sample_loop_fp_cell (fuel : Nat) (sin : ℚ → ℚ) (inc v : ℚ) (w : Int) (n : Nat) :
    ∀ (i : Nat) (osc : Oscillator ℚ) (buffer : Buffer ℚ) (r : Oscillator ℚ × Buffer ℚ),
    sample_loop_fp fuel sin inc v w n i osc buffer = some r →
    ∀ (k : Nat) (p : ℚ), k < n → phase_fp fuel inc k osc.phase = some p →
      r.2.cells (i + k) = to_float (wave_sample_fp sin w p * v) := by
  induction n with
  | zero => intro i osc buffer r _ k p hk; exact absurd hk (Nat.not_lt_zero k)
  | succ n ih =>
    intro i osc buffer r h k p hk hp
    rcases ha : advance_phase_fp fuel inc osc.phase with _ | p1
    · simp [sample_loop_fp, ha] at h
    · simp only [sample_loop_fp, ha] at h
      cases k with
      | zero =>
        simp only [phase_fp, Option.some.injEq] at hp
        subst hp
        rw [Nat.add_zero, (sample_loop_fp_frame fuel sin inc v w n _ _ _ r h).2 i (by omega)]
        simp [Buffer.store]
      | succ k =>
        rw [phase_fp_succ fuel inc k _ p1 ha] at hp
        have := ih _ _ _ r h k p (by omega) hp
        rw [← this]
        congr 1
        omega

/-- A call whose phases all exist returns; it ends with the last phase, has
stored to the slots `0, ..., n-1`, and has left the other slots alone. -/
theorem generate_samples_fp_returns (fuel : Nat) (sin : ℚ → ℚ) (p0 freq sample_rate volume : ℚ)
    (w : Int) (buffer : Buffer ℚ) (n : Nat) (q : ℚ)
    (h : phase_fp fuel (phase_increment_fp freq sample_rate) n p0 = some q) :
    ∃ out : Buffer ℚ,
      generate_samples_fp fuel sin (some { phase := p0 }) freq sample_rate volume w buffer n =
        some (some { phase := q }, out) ∧
      out.written = buffer.written ++ List.range n ∧
      (∀ j, n ≤ j → out.cells j = buffer.cells j) ∧
      ∀ (k : Nat) (p : ℚ), k < n →
        phase_fp fuel (phase_increment_fp freq sample_rate) k p0 = some p →
        out.cells k = to_float (wave_sample_fp sin w p * volume) := by
  have hph := sample_loop_fp_phase fuel sin (phase_increment_fp freq sample_rate) volume w n 0
    { phase := p0 } buffer
  rw [h] at hph
  rcases hs : sample_loop_fp fuel sin (phase_increment_fp freq sample_rate) volume w n 0
    { phase := p0 } buffer with _ | r
  · rw [hs] at hph; simp at hph
  · rw [hs] at hph
    simp only [Option.map_some', Option.some.injEq] at hph
    have hfr := sample_loop_fp_frame fuel sin _ volume w n 0 _ buffer r hs
    refine ⟨r.2, ?_, ?_, fun j hj => hfr.2 j (by omega), fun k p hk hp => ?_⟩
    · simp only [generate_samples_fp, Int.toNat_ofNat, hs, Option.map_some']
      rw [← hph]
    · rw [hfr.1, List.range_eq_range']
    · have := sample_loop_fp_cell fuel sin _ volume w n 0 _ buffer r hs k p hk hp
      rwa [Nat.zero_add] at this

/-! ### Phases of a call in the rounded reading -/

theorem wrap_loop_fp_bounds (fuel : Nat) : ∀ (q : ℚ) (r : ℚ × Nat),
    wrap_loop_fp fuel q = some r → r.1 < two_PI_double ∧ (0 ≤ q → 0 ≤ r.1) := by
  induction fuel with
  | zero =>
    intro q r h
    by_cases hq : q ≥ two_PI_double
    · simp [wrap_loop_fp, hq] at h
    · rw [wrap_loop_fp_of_lt 0 q (not_le.mp hq)] at h
      cases Option.some.inj h
      exact ⟨not_le.mp hq, fun h0 => h0⟩
  | succ f ih =>
    intro q r h
    by_cases hq : q ≥ two_PI_double
    · rw [wrap_loop_fp_succ f q hq] at h
      rcases hw : wrap_loop_fp f (to_double (q - two_PI_double)) with _ | r1
      · rw [hw] at h; simp at h
      · rw [hw] at h
        cases Option.some.inj h
        have := ih _ r1 hw
        exact ⟨this.1, fun _ => this.2 (to_double_nonneg _ (by linarith))⟩
    · rw [wrap_loop_fp_of_lt _ q (not_le.mp hq)] at h
      cases Option.some.inj h
      exact ⟨not_le.mp hq, fun h0 => h0⟩

theorem advance_phase_fp_bounds (fuel : Nat) (inc p q : ℚ) (hinc : 0 ≤ inc) (hp : 0 ≤ p)
    (h : advance_phase_fp fuel inc p = some q) : 0 ≤ q ∧ q < two_PI_double := by
  unfold advance_phase_fp at h
  rcases hw : wrap_loop_fp fuel (to_double (p + inc)) with _ | r
  · rw [hw] at h; simp at h
  · rw [hw] at h
    cases Option.some.inj h
    have := wrap_loop_fp_bounds fuel _ r hw
    exact ⟨this.2 (to_double_nonneg _ (add_nonneg hp hinc)), this.1⟩

theorem phase_fp_bounds (fuel : Nat) (inc : ℚ) (hinc : 0 ≤ inc) (n : Nat) :
    ∀ (p q : ℚ), 0 ≤ p → p < two_PI_double → phase_fp fuel inc n p = some q →
      0 ≤ q ∧ q < two_PI_double := by
  induction n with
  | zero =>
    intro p q h0 h1 h
    cases Option.some.inj h
    exact ⟨h0, h1⟩
  | succ n ih =>
    intro p q h0 h1 h
    rcases ha : advance_phase_fp fuel inc p with _ | p1
    · simp [phase_fp, ha] at h
    · simp only [phase_fp, ha] at h
      have hb := advance_phase_fp_bounds fuel inc p p1 hinc h0 ha
      exact ih p1 q hb.1 hb.2 h

theorem phase_fp_initial (fuel : Nat) (inc : ℚ) (k : Nat) :
    ∀ (n : Nat) (p q : ℚ), k ≤ n → phase_fp fuel inc n p = some q →
      ∃ qk, phase_fp fuel inc k p = some qk := by
  induction k with
  | zero => intro n p q _ _; exact ⟨p, rfl⟩
  | succ k ih =>
    intro n p q hk h
    obtain ⟨m, rfl⟩ : ∃ m, n = m + 1 := ⟨n - 1, by omega⟩
    rcases ha : advance_phase_fp fuel inc p with _ | p1
    · simp [phase_fp, ha] at h
    · simp only [phase_fp, ha] at h
      obtain ⟨qk, hqk⟩ := ih m p1 q (by omega) h
      exact ⟨qk, by simp only [phase_fp, ha]; exact hqk⟩

theorem phase_increment_fp_nonneg (freq sample_rate : ℚ) (hf : 0 ≤ freq) (hs : 0 < sample_rate) :
    0 ≤ phase_increment_fp freq sample_rate := by
  unfold phase_increment_fp
  have hT : (0 : ℚ) ≤ two_PI_double := by have := two_PI_double_gt; linarith
  exact to_double_nonneg _ (div_nonneg (to_double_nonneg _ (mul_nonneg hT hf)) hs.le)

/-- What a call that returns has stored in slot `k`. -/
theorem generate_samples_fp_cell (fuel : Nat) (sin : ℚ → ℚ) (p0 freq sample_rate volume : ℚ)
    (w : Int) (buffer : Buffer ℚ) (n : Nat) (r : Option (Oscillator ℚ) × Buffer ℚ)
    (h : generate_samples_fp fuel sin (some { phase := p0 }) freq sample_rate volume w buffer n =
      some r) (k : Nat) (hk : k < n) :
    ∃ p, phase_fp fuel (phase_increment_fp freq sample_rate) k p0 = some p ∧
      r.2.cells k = to_float (wave_sample_fp sin w p * volume) := by
  simp only [generate_samples_fp, Int.toNat_ofNat] at h
  rcases hs : sample_loop_fp fuel sin (phase_increment_fp freq sample_rate) volume w n 0
    { phase := p0 } buffer with _ | r1
  · rw [hs] at h; simp at h
  · rw [hs] at h
    cases Option.some.inj h
    have hph := sample_loop_fp_phase fuel sin (phase_increment_fp freq sample_rate) volume w n 0
      { phase := p0 } buffer
    rw [hs] at hph
    obtain ⟨p, hp⟩ := phase_fp_initial fuel _ k n p0 _ hk.le hph.symm
    refine ⟨p, hp, ?_⟩
    have := sample_loop_fp_cell fuel sin _ volume w n 0 _ buffer r1 hs k p hk hp
    rwa [Nat.zero_add] at this

/-! ### C9 -/

theorem to_double_two_PI : to_double two_PI_double = two_PI_double := by decide!

theorem to_double_two_turns : to_double (2 * two_PI_double) = 2 * two_PI_double := by decide!

/-- One sample of a well-formed call: the phase is advanced with at most two
subtractions and two roundings of at most `2^-50` each. -/
theorem advance_phase_fp_step (fuel : Nat) (hfuel : 2 ≤ fuel) (inc p : ℚ)
    (hi0 : 0 ≤ inc) (hiT : inc < two_PI_double) (hp0 : 0 ≤ p) (hpT : p < two_PI_double) :
    ∃ (q : ℚ) (j : Nat), advance_phase_fp fuel inc p = some q ∧ 0 ≤ q ∧ q < two_PI_double ∧
      |q - (p + inc - two_PI_double * j)| ≤ 1 / 2 ^ 49 := by
  have hT7 := two_PI_double_lt
  have hT6 := two_PI_double_gt
  have hs0 : 0 ≤ p + inc := add_nonneg hp0 hi0
  have herr0 := to_double_error_16 (p + inc) (by rw [abs_of_nonneg hs0]; linarith)
  have hq0 : 0 ≤ to_double (p + inc) := to_double_nonneg _ hs0
  have hq0le : to_double (p + inc) ≤ 2 * two_PI_double :=
    round_binary_le 52 (-1022) _ _ to_double_two_turns (by linarith)
  have e0 := abs_le.mp herr0
  have h49 : (1 : ℚ) / 2 ^ 49 = 1 / 2 ^ 50 + 1 / 2 ^ 50 := by norm_num
  have h50 : (0 : ℚ) < 1 / 2 ^ 50 := by norm_num
  suffices hsuff : ∃ (q : ℚ) (j : Nat), advance_phase_fp 2 inc p = some q ∧ 0 ≤ q ∧
      q < two_PI_double ∧ |q - (p + inc - two_PI_double * j)| ≤ 1 / 2 ^ 49 by
    obtain ⟨q, j, h1, h2⟩ := hsuff
    exact ⟨q, j, advance_phase_fp_mono_le 2 fuel hfuel inc p q h1, h2⟩
  unfold advance_phase_fp
  by_cases h : to_double (p + inc) ≥ two_PI_double
  · have hx0 : 0 ≤ to_double (p + inc) - two_PI_double := by linarith
    have herr1 := to_double_error_16 (to_double (p + inc) - two_PI_double)
      (by rw [abs_of_nonneg hx0]; linarith)
    have e1 := abs_le.mp herr1
    have hq1 : 0 ≤ to_double (to_double (p + inc) - two_PI_double) := to_double_nonneg _ hx0
    have hq1le : to_double (to_double (p + inc) - two_PI_double) ≤ two_PI_double :=
      round_binary_le 52 (-1022) _ _ to_double_two_PI (by linarith)
    by_cases h2 : to_double (to_double (p + inc) - two_PI_double) ≥ two_PI_double
    · have heq : to_double (to_double (p + inc) - two_PI_double) = two_PI_double :=
        le_antisymm hq1le h2
      have hz : to_double (two_PI_double - two_PI_double) = 0 := by
        rw [sub_self]; exact round_binary_zero 52 (-1022)
      refine ⟨0, 2, ?_, le_refl _, by linarith, ?_⟩
      · rw [wrap_loop_fp_succ 1 _ h, wrap_loop_fp_succ 0 _ h2, heq, hz,
          wrap_loop_fp_of_lt 0 0 (by linarith)]
        rfl
      · rw [heq] at e1
        rw [abs_le]
        push_cast
        constructor <;> linarith
    · have hlt := not_le.mp h2
      refine ⟨_, 1, ?_, hq1, hlt, ?_⟩
      · rw [wrap_loop_fp_succ 1 _ h, wrap_loop_fp_of_lt 1 _ hlt]
        rfl
      · rw [abs_le]
        push_cast
        constructor <;> linarith
  · have hlt := not_le.mp h
    refine ⟨_, 0, ?_, hq0, hlt, ?_⟩
    · rw [wrap_loop_fp_of_lt 2 _ hlt]
      rfl
    · rw [abs_le]
      push_cast
      constructor <;> linarith

theorem phase_fp_closed (fuel : Nat) (hfuel : 2 ≤ fuel) (inc : ℚ)
    (hi0 : 0 ≤ inc) (hiT : inc < two_PI_double) (n : Nat) :
    ∀ p : ℚ, 0 ≤ p → p < two_PI_double →
    ∃ (q : ℚ) (k : Nat), phase_fp fuel inc n p = some q ∧ 0 ≤ q ∧ q < two_PI_double ∧
      |q - (p + n * inc - two_PI_double * k)| ≤ n / 2 ^ 49 := by
  induction n with
  | zero =>
    intro p h0 h1
    exact ⟨p, 0, rfl, h0, h1, by simp⟩
  | succ n ih =>
    intro p h0 h1
    obtain ⟨p1, j, ha, hp0, hpT, he⟩ := advance_phase_fp_step fuel hfuel inc p hi0 hiT h0 h1
    obtain ⟨q, k, hq, hq0, hqT, hqe⟩ := ih p1 hp0 hpT
    refine ⟨q, k + j, by rw [phase_fp_succ fuel inc n p p1 ha]; exact hq, hq0, hqT, ?_⟩
    have hsplit : q - (p + ((n + 1 : ℕ) : ℚ) * inc - two_PI_double * ((k + j : ℕ) : ℚ)) =
        (q - (p1 + n * inc - two_PI_double * k)) + (p1 - (p + inc - two_PI_double * j)) := by
      push_cast; ring
    rw [hsplit]
    calc |(q - (p1 + n * inc - two_PI_double * k)) + (p1 - (p + inc - two_PI_double * j))|
        ≤ |q - (p1 + n * inc - two_PI_double * k)| + |p1 - (p + inc - two_PI_double * j)| :=
          abs_add _ _
      _ ≤ n / 2 ^ 49 + 1 / 2 ^ 49 := add_le_add hqe he
      _ = ((n + 1 : ℕ) : ℚ) / 2 ^ 49 := by push_cast; ring

/-- C11, closed form of the phase, as amended: in binary64, for every initial
phase `p0` with `0 ≤ p0 < 2.0*PI`, every frequency `≥ 0` and sample rate `> 0`
whose increment `inc = (2.0*PI*freq)/sample_rate` (as the code rounds it) is
below `2.0*PI`, and every count `n`, the call returns, the phase it leaves
lies in `[0, 2.0*PI)` and equals `p0 + n*inc` minus a whole number of
`2.0*PI` up to an absolute error of at most `n * 2^-49`. It is within that
error of a representative of `p0 + n*inc` modulo `2.0*PI`, and need not equal
the one of the closed form. -/
theorem phase_closed_form (fuel : Nat) (sin : ℚ → ℚ) (p0 freq sample_rate volume : ℚ) (w : Int)
    (buffer : Buffer ℚ) (n : Nat) (h0 : 0 ≤ p0) (h1 : p0 < two_PI_double) (hf : 0 ≤ freq)
    (hs : 0 < sample_rate) (hinc : phase_increment_fp freq sample_rate < two_PI_double)
    (hfuel : 2 ≤ fuel) :
    ∃ (q : ℚ) (out : Buffer ℚ) (k : Nat),
      generate_samples_fp fuel sin (some { phase := p0 }) freq sample_rate volume w buffer n =
        some (some { phase := q }, out) ∧
      0 ≤ q ∧ q < two_PI_double ∧
      |q - (p0 + n * phase_increment_fp freq sample_rate - two_PI_double * k)| ≤ n / 2 ^ 49 := by
  obtain ⟨q, k, hq, hq0, hqT, he⟩ := phase_fp_closed fuel hfuel _
    (phase_increment_fp_nonneg freq sample_rate hf hs) hinc n p0 h0 h1
  obtain ⟨out, ho, _⟩ := generate_samples_fp_returns fuel sin p0 freq sample_rate volume w buffer
    n q hq
  exact ⟨q, out, k, ho, hq0, hqT, he⟩

set_option maxRecDepth 100000 in
/-- Witness for C11: starting phase 1, 1000 Hz at sample rate 8000, ten
samples, with one wrap on the way (the phase passes `2.0 * PI` at sample 7). -/
theorem phase_closed_form_witness :
    (0 : ℚ) ≤ 1 ∧ (1 : ℚ) < two_PI_double ∧ (0 : ℚ) ≤ 1000 ∧ (0 : ℚ) < 8000 ∧
    phase_increment_fp 1000 8000 < two_PI_double ∧
    (∃ (q : ℚ) (out : Buffer ℚ) (k : Nat),
      generate_samples_fp 2 (fun _ => 0) (some { phase := 1 }) 1000 8000 1 0
        (Buffer.fresh fun _ => 0) (10 : Nat) = some (some { phase := q }, out) ∧
      0 ≤ q ∧ q < two_PI_double ∧
      |q - (1 + (10 : Nat) * phase_increment_fp 1000 8000 - two_PI_double * k)| ≤
        (10 : Nat) / 2 ^ 49) ∧
    (generate_samples_fp 2 (fun _ => 0) (some { phase := 1 }) 1000 8000 1 0
        (Buffer.fresh fun _ => 0) (10 : Nat)).map (fun r => r.1.map fun o => o.phase) =
      some (some (1 + 10 * phase_increment_fp 1000 8000 - two_PI_double * 1)) :=
  ⟨by norm_num, lt_trans (by norm_num) two_PI_double_gt, by norm_num, by norm_num, by decide!,
    phase_closed_form 2 (fun _ => 0) 1 1000 8000 1 0 (Buffer.fresh fun _ => 0) 10 (by norm_num)
      (lt_trans (by norm_num) two_PI_double_gt) (by norm_num) (by norm_num) (by decide!)
      (le_refl 2), by decide!⟩

theorem closed_form_full_turn :
    closed_form_phase (0 : ℚ) ((2 * PI * 1000) / 6000) 6 = 0 := by
  have hPI : (0 : ℚ) < 2 * PI := two_PI_pos
  have e : (0 : ℚ) + ((6 : ℕ) : ℚ) * ((2 * PI * 1000) / 6000) = 2 * PI := by
    push_cast; ring
  unfold closed_form_phase
  rw [e, div_self hPI.ne', Int.floor_one]
  push_cast
  ring

set_option maxRecDepth 100000 in
/-- Counterexample to C11 as stated: a fresh oscillator, 1000 Hz at sample
rate 6000, six samples. The closed form gives phase `0`; the code leaves the
phase `2.0*PI - 2^-50` (6.283185307179585). With the increment and `2.0*PI`
as the code holds them the closed form gives `2.0*PI - 2^-51`, which the
code's phase differs from as well. -/
theorem phase_closed_form_counterexample :
    (generate_samples_fp 1 (fun _ => 0) (some create_oscillator) 1000 6000 1 0
      (Buffer.fresh fun _ => 0) 6).map (fun r => r.1.map fun o => o.phase) =
        some (some (two_PI_double - 1 / 2 ^ 50)) ∧
    closed_form_phase (0 : ℚ) ((2 * PI * 1000) / 6000) 6 = 0 ∧
    two_PI_double - 1 / 2 ^ 50 ≠ 0 ∧
    (0 + 6 * phase_increment_fp 1000 6000) -
      two_PI_double * ⌊(0 + 6 * phase_increment_fp 1000 6000) / two_PI_double⌋ =
        two_PI_double - 1 / 2 ^ 51 ∧
    two_PI_double - 1 / 2 ^ 50 ≠ two_PI_double - 1 / 2 ^ 51 := by
  refine ⟨by decide!, closed_form_full_turn, by decide!, by decide!, by decide!⟩

/-! ### C5 -/

theorem to_float_abs_le (s v : ℚ) (hv : to_float v = v) (h1 : -1 ≤ s) (h2 : s ≤ 1) :
    |to_float (s * v)| ≤ |v| := by
  have habs : to_float |v| = |v| := by
    rcases abs_cases v with ⟨e, _⟩ | ⟨e, _⟩
    · rw [e]; exact hv
    · rw [e]; unfold to_float at hv ⊢; rw [round_binary_neg, hv]
  have hneg : to_float (-|v|) = -|v| := by
    unfold to_float at habs ⊢; rw [round_binary_neg, habs]
  have hprod : |s * v| ≤ |v| := by
    rw [abs_mul]
    have : |s| ≤ 1 := abs_le.mpr ⟨h1, h2⟩
    calc |s| * |v| ≤ 1 * |v| := mul_le_mul_of_nonneg_right this (abs_nonneg v)
      _ = |v| := one_mul _
  have hb := abs_le.mp hprod
  exact abs_le.mpr ⟨le_round_binary 23 (-126) _ _ hneg hb.1,
    round_binary_le 23 (-126) _ _ habs hb.2⟩

theorem saw_sample_bounds (sin : ℚ → ℚ) (p : ℚ) (h0 : 0 ≤ p) (h1 : p < two_PI_double) :
    -1 ≤ wave_sample_fp sin 2 p ∧ wave_sample_fp sin 2 p ≤ 1 := by
  have hPI : (0 : ℚ) < PI_double := by unfold PI_double; norm_num
  have hx0 : 0 ≤ p / PI_double := div_nonneg h0 hPI.le
  have hx2 : p / PI_double ≤ 2 := by
    rw [div_le_iff₀ hPI]
    rw [two_PI_double_eq_two_mul] at h1
    linarith
  have hd0 : 0 ≤ to_double (p / PI_double) := to_double_nonneg _ hx0
  have hd2 : to_double (p / PI_double) ≤ 2 := round_binary_le 52 (-1022) _ _ to_double_two hx2
  have he1 : -1 ≤ to_double (to_double (p / PI_double) - 1) :=
    le_round_binary 52 (-1022) _ _ to_double_neg_one (by linarith)
  have he2 : to_double (to_double (p / PI_double) - 1) ≤ 1 :=
    round_binary_le 52 (-1022) _ _ to_double_one (by linarith)
  have hw : wave_sample_fp sin 2 p =
      to_float (to_double (to_double (p / PI_double) - 1)) := by
    simp [wave_sample_fp]
  rw [hw]
  exact ⟨le_round_binary 23 (-126) _ _ to_float_neg_one he1,
    round_binary_le 23 (-126) _ _ to_float_one he2⟩

/-- C5, saw range, as amended: in binary64 and binary32, for every phase `p`
with `0 ≤ p < 2.0*PI` the saw value `(float)((p / PI) - 1.0)` satisfies
`-1 ≤ value ≤ 1`; the value at `p = 0` is `-1`; and for a binary32 volume the
sample stored for it, `(float)(value * volume)`, has absolute value at most
`|volume|`.  So has every sample of a saw call started at such a phase with
frequency `≥ 0` and sample rate `> 0`: of any such call that returns, and a
call whose increment is below `2.0*PI` does return. -/
theorem saw_range (sin : ℚ → ℚ) (p volume : ℚ) (h0 : 0 ≤ p) (h1 : p < two_PI_double)
    (hv : to_float volume = volume) :
    wave_sample_fp sin 2 p = to_float (to_double (to_double (p / PI_double) - 1)) ∧
    -1 ≤ wave_sample_fp sin 2 p ∧ wave_sample_fp sin 2 p ≤ 1 ∧
    wave_sample_fp sin 2 0 = -1 ∧
    |to_float (wave_sample_fp sin 2 p * volume)| ≤ |volume| ∧
    (∀ (fuel : Nat) (freq sample_rate : ℚ) (buffer : Buffer ℚ) (n : Nat)
      (r : Option (Oscillator ℚ) × Buffer ℚ), 0 ≤ freq → 0 < sample_rate →
      generate_samples_fp fuel sin (some { phase := p }) freq sample_rate volume 2 buffer n =
        some r →
      ∀ i, i < n → ∃ q, 0 ≤ q ∧ q < two_PI_double ∧
        r.2.cells i = to_float (wave_sample_fp sin 2 q * volume) ∧ |r.2.cells i| ≤ |volume|) ∧
    ∀ (fuel : Nat) (freq sample_rate : ℚ) (buffer : Buffer ℚ) (n : Nat),
      2 ≤ fuel → 0 ≤ freq → 0 < sample_rate →
      phase_increment_fp freq sample_rate < two_PI_double →
      ∃ (q : ℚ) (out : Buffer ℚ),
        generate_samples_fp fuel sin (some { phase := p }) freq sample_rate volume 2 buffer n =
          some (some { phase := q }, out) ∧
        out.cells 0 = (if 0 < n then to_float (wave_sample_fp sin 2 p * volume)
          else buffer.cells 0) ∧
        ∀ i, i < n → |out.cells i| ≤ |volume| := by
  have hb := saw_sample_bounds sin p h0 h1
  have hcall : ∀ (fuel : Nat) (freq sample_rate : ℚ) (buffer : Buffer ℚ) (n : Nat)
      (r : Option (Oscillator ℚ) × Buffer ℚ), 0 ≤ freq → 0 < sample_rate →
      generate_samples_fp fuel sin (some { phase := p }) freq sample_rate volume 2 buffer n =
        some r →
      ∀ i, i < n → ∃ q, 0 ≤ q ∧ q < two_PI_double ∧
        r.2.cells i = to_float (wave_sample_fp sin 2 q * volume) ∧
        |r.2.cells i| ≤ |volume| := by
    intro fuel freq sample_rate buffer n r hf hs hr i hi
    obtain ⟨q, hq, hc⟩ := generate_samples_fp_cell fuel sin p freq sample_rate volume 2 buffer n r
      hr i hi
    have hqb := phase_fp_bounds fuel _ (phase_increment_fp_nonneg freq sample_rate hf hs) i p q
      h0 h1 hq
    have hsb := saw_sample_bounds sin q hqb.1 hqb.2
    exact ⟨q, hqb.1, hqb.2, hc, by rw [hc]; exact to_float_abs_le _ _ hv hsb.1 hsb.2⟩
  refine ⟨by simp [wave_sample_fp], hb.1, hb.2, ?_, to_float_abs_le _ _ hv hb.1 hb.2, hcall, ?_⟩
  · have e : wave_sample_fp sin 2 0 = to_float (to_double (to_double (0 / PI_double) - 1)) := by
      simp [wave_sample_fp]
    rw [e]
    decide!
  · intro fuel freq sample_rate buffer n hfuel hf hs hinc
    obtain ⟨q, _, hq, _⟩ := phase_fp_closed fuel hfuel _
      (phase_increment_fp_nonneg freq sample_rate hf hs) hinc n p h0 h1
    obtain ⟨out, ho, _, hfr, hc⟩ := generate_samples_fp_returns fuel sin p freq sample_rate volume
      2 buffer n q hq
    refine ⟨q, out, ho, ?_, fun i hi => ?_⟩
    · by_cases hn : 0 < n
      · rw [if_pos hn]
        exact hc 0 p hn rfl
      · rw [if_neg hn]
        exact hfr 0 (by omega)
    · obtain ⟨_, _, _, _, hle⟩ := hcall fuel freq sample_rate buffer n _ hf hs ho i hi
      exact hle

set_option maxRecDepth 100000 in
/-- Witness for C5: phase 1, volume 1/2, and the call at 1000 Hz, sample rate
8000, three samples. -/
theorem saw_range_witness :
    (0 : ℚ) ≤ 1 ∧ (1 : ℚ) < two_PI_double ∧ to_float (1 / 2) = 1 / 2 ∧
    -1 ≤ wave_sample_fp (fun _ => 0) 2 1 ∧ wave_sample_fp (fun _ => 0) 2 1 ≤ 1 ∧
    |to_float (wave_sample_fp (fun _ => 0) 2 1 * (1 / 2))| ≤ |(1 / 2 : ℚ)| ∧
    ∃ (q : ℚ) (out : Buffer ℚ),
      generate_samples_fp 2 (fun _ => 0) (some { phase := 1 }) 1000 8000 (1 / 2) 2
        (Buffer.fresh fun _ => 0) (3 : Nat) = some (some { phase := q }, out) ∧
      out.cells 0 = (if 0 < 3 then to_float (wave_sample_fp (fun _ => 0) 2 1 * (1 / 2))
        else (Buffer.fresh fun _ => (0 : ℚ)).cells 0) ∧
      ∀ i, i < 3 → |out.cells i| ≤ |(1 / 2 : ℚ)| :=
  have h := saw_range (fun _ => 0) 1 (1 / 2) (by norm_num)
    (lt_trans (by norm_num) two_PI_double_gt) (by decide!)
  ⟨by norm_num, lt_trans (by norm_num) two_PI_double_gt, by decide!, h.2.1, h.2.2.1,
    h.2.2.2.2.1,
    h.2.2.2.2.2.2 2 1000 8000 (Buffer.fresh fun _ => 0) 3 (le_refl 2) (by norm_num)
      (by norm_num) (by decide!)⟩

set_option maxRecDepth 100000 in
/-- Counterexample to C5 as stated: the value `+1` is attained, at the phase
`2.0*PI - 2^-50` that a fresh oscillator reaches after six samples at 1000 Hz
and sample rate 6000 (sample 6 of the saw call is exactly `1`); and the value
`-1` is attained at the non-zero phase `2^-30`. -/
theorem saw_range_counterexample :
    (0 : ℚ) ≤ two_PI_double - 1 / 2 ^ 50 ∧ two_PI_double - 1 / 2 ^ 50 < two_PI_double ∧
    wave_sample_fp (fun _ => 0) 2 (two_PI_double - 1 / 2 ^ 50) = 1 ∧
    (generate_samples_fp 1 (fun _ => 0) (some create_oscillator) 1000 6000 1 0
      (Buffer.fresh fun _ => 0) 6).map (fun r => r.1.map fun o => o.phase) =
        some (some (two_PI_double - 1 / 2 ^ 50)) ∧
    (generate_samples_fp 1 (fun _ => 0) (some create_oscillator) 1000 6000 1 2
      (Buffer.fresh fun _ => 0) 7).map (fun r => r.2.cells 6) = some 1 ∧
    (0 : ℚ) < 1 / 2 ^ 30 ∧ (1 : ℚ) / 2 ^ 30 < two_PI_double ∧
    wave_sample_fp (fun _ => 0) 2 (1 / 2 ^ 30) = -1 := by
  refine ⟨by decide!, by decide!, by decide!, by decide!, by decide!, by decide!, by decide!,
    by decide!⟩

/-! ### C12 -/

theorem wrap_loop_fp_terminates (fuel : Nat) : ∀ q : ℚ,
    q < two_PI_double + 2 * fuel → q < 2 ^ 56 →
    ∃ r, wrap_loop_fp fuel q = some r ∧ r.1 < two_PI_double := by
  have hT := two_PI_double_gt
  induction fuel with
  | zero =>
    intro q hq _
    have : q < two_PI_double := by simpa using hq
    exact ⟨(q, 0), wrap_loop_fp_of_lt 0 q this, this⟩
  | succ f ih =>
    intro q hq hq56
    by_cases h : q ≥ two_PI_double
    · have hx0 : 0 ≤ q - two_PI_double := by linarith
      have herr := to_double_error_56 (q - two_PI_double) (by
        rw [abs_of_nonneg hx0]; linarith)
      have hle := (abs_le.mp herr).2
      obtain ⟨r, hr, hr1⟩ := ih (to_double (q - two_PI_double)) (by push_cast at hq ⊢; linarith)
        (by linarith)
      exact ⟨(r.1, r.2 + 1), by rw [wrap_loop_fp_succ f q h, hr]; rfl, hr1⟩
    · have hlt := not_le.mp h
      exact ⟨(q, 0), wrap_loop_fp_of_lt _ q hlt, hlt⟩

theorem wrap_loop_fp_det (fuel1 fuel2 : Nat) (q : ℚ) (r1 r2 : ℚ × Nat)
    (h1 : wrap_loop_fp fuel1 q = some r1) (h2 : wrap_loop_fp fuel2 q = some r2) : r1 = r2 := by
  have e1 := wrap_loop_fp_mono_le fuel1 (max fuel1 fuel2) (le_max_left _ _) q r1 h1
  have e2 := wrap_loop_fp_mono_le fuel2 (max fuel1 fuel2) (le_max_right _ _) q r2 h2
  rw [e1] at e2
  exact Option.some.inj e2

/-- The binary64 numbers below `2.0 * PI` are at most its predecessor
`2.0 * PI - 2^-50`. -/
theorem double_below_two_PI (p : ℚ) (hp : to_double p = p) (hT : p < two_PI_double) :
    p ≤ two_PI_double - 1 / 2 ^ 50 := by
  by_contra hc
  have hgt : two_PI_double - 1 / 2 ^ 50 < p := not_le.mp hc
  rw [two_PI_double_eq] at hgt hT
  have h4 : (4 : ℚ) ≤ p := by norm_num at hgt; linarith
  have h8 : p < 8 := by norm_num at hT; linarith
  have hpos : (0 : ℚ) < p := by linarith
  have habs : |p| = p := abs_of_pos hpos
  have he : binary_exponent |p| = 2 := by
    rw [habs]
    have h1 := le_exponent_of_le p 2 hpos (by norm_num; exact h4)
    have h2 := exponent_lt_of_lt p 3 hpos (by norm_num; exact h8)
    omega
  have hu : ulp 52 (-1022) p = 1 / 2 ^ 50 := by
    unfold ulp
    rw [he]
    norm_num [zpow_neg]
  have hm := representable_multiple 52 (-1022) p hp
  rw [hu] at hm
  have hn : (round_half_even (p / (1 / 2 ^ 50)) : ℚ) = p * 2 ^ 50 := by
    rw [hm]; field_simp
  have hlo : ((7074237752028439 : ℤ) : ℚ) < (round_half_even (p / (1 / 2 ^ 50)) : ℚ) := by
    rw [hn]; norm_num at hgt ⊢; linarith
  have hhi : (round_half_even (p / (1 / 2 ^ 50)) : ℚ) < ((7074237752028440 : ℤ) : ℚ) := by
    rw [hn]; norm_num at hT ⊢; linarith
  have hlo' : (7074237752028439 : ℤ) < round_half_even (p / (1 / 2 ^ 50)) := by exact_mod_cast hlo
  have hhi' : round_half_even (p / (1 / 2 ^ 50)) < (7074237752028440 : ℤ) := by exact_mod_cast hhi
  omega

theorem to_double_pred_two_PI :
    to_double (two_PI_double - 1 / 2 ^ 50) = two_PI_double - 1 / 2 ^ 50 := by decide!

theorem to_double_top_sum :
    to_double (2 * two_PI_double - 1 / 2 ^ 49) = 2 * two_PI_double - 1 / 2 ^ 49 := by decide!

/-- For two binary64 values in `[0, 2.0 * PI)` the sum wraps with at most one
subtraction. -/
theorem wrap_loop_fp_well_formed (p inc : ℚ) (hp : to_double p = p) (hi : to_double inc = inc)
    (hp0 : 0 ≤ p) (hpT : p < two_PI_double) (hi0 : 0 ≤ inc) (hiT : inc < two_PI_double) :
    ∃ r, wrap_loop_fp 1 (to_double (p + inc)) = some r ∧ r.2 ≤ 1 ∧
      (r.2 : ℤ) = ⌊to_double (p + inc) / two_PI_double⌋ ∧ 0 ≤ r.1 ∧ r.1 < two_PI_double := by
  have hT := two_PI_double_gt
  have hTpos : (0 : ℚ) < two_PI_double := by linarith
  have h1 := double_below_two_PI p hp hpT
  have h2 := double_below_two_PI inc hi hiT
  have hq0 : 0 ≤ to_double (p + inc) := to_double_nonneg _ (add_nonneg hp0 hi0)
  have hq : to_double (p + inc) ≤ 2 * two_PI_double - 1 / 2 ^ 49 :=
    round_binary_le 52 (-1022) _ _ to_double_top_sum (by
      have : (1 : ℚ) / 2 ^ 49 = 1 / 2 ^ 50 + 1 / 2 ^ 50 := by norm_num
      linarith)
  by_cases h : to_double (p + inc) ≥ two_PI_double
  · have hx0 : 0 ≤ to_double (p + inc) - two_PI_double := by linarith
    have hq2 : to_double (to_double (p + inc) - two_PI_double) ≤ two_PI_double - 1 / 2 ^ 50 :=
      round_binary_le 52 (-1022) _ _ to_double_pred_two_PI (by
        have : (1 : ℚ) / 2 ^ 49 = 1 / 2 ^ 50 + 1 / 2 ^ 50 := by norm_num
        linarith)
    have hlt : to_double (to_double (p + inc) - two_PI_double) < two_PI_double := by
      have : (0 : ℚ) < 1 / 2 ^ 50 := by norm_num
      linarith
    refine ⟨(to_double (to_double (p + inc) - two_PI_double), 1), ?_, le_refl _, ?_,
      to_double_nonneg _ hx0, hlt⟩
    · rw [wrap_loop_fp_succ 0 _ h, wrap_loop_fp_of_lt 0 _ hlt]
      rfl
    · symm
      rw [Int.floor_eq_iff]
      have : (0 : ℚ) < 1 / 2 ^ 49 := by norm_num
      constructor
      · rw [le_div_iff₀ hTpos]; push_cast; linarith
      · rw [div_lt_iff₀ hTpos]; push_cast; linarith
  · have hlt := not_le.mp h
    refine ⟨(to_double (p + inc), 0), wrap_loop_fp_of_lt _ _ hlt, by omega, ?_, hq0, hlt⟩
    symm
    rw [Int.floor_eq_iff]
    constructor
    · rw [le_div_iff₀ hTpos]; push_cast; linarith
    · rw [div_lt_iff₀ hTpos]; push_cast; linarith

theorem wrap_loop_fp_fixed (q : ℚ) (hq : q ≥ two_PI_double)
    (hfix : to_double (q - two_PI_double) = q) (fuel : Nat) : wrap_loop_fp fuel q = none := by
  induction fuel with
  | zero => simp [wrap_loop_fp, hq]
  | succ f ih => rw [wrap_loop_fp_succ f q hq, hfix, ih]; rfl

/-- The cost of the wrap loop in binary64: it terminates for every phase
below `2^56` (some bound on the subtractions is enough, and the phase on exit
is below `2.0 * PI`); the number of subtractions and the phase on exit do not
depend on the bound; and for binary64 values `p` and `inc` with
`0 ≤ p < 2.0*PI` and `0 ≤ inc < 2.0*PI` it performs at most one subtraction
per sample, namely `floor((p + inc) / (2.0*PI))` of them with the sum and the
constant as the code holds them, and leaves the phase in `[0, 2.0*PI)`. -/
theorem wrap_loop_fp_cost :
    (∀ q : ℚ, q < 2 ^ 56 → ∃ fuel r, wrap_loop_fp fuel q = some r ∧ r.1 < two_PI_double) ∧
    (∀ (fuel1 fuel2 : Nat) (q : ℚ) (r1 r2 : ℚ × Nat),
      wrap_loop_fp fuel1 q = some r1 → wrap_loop_fp fuel2 q = some r2 → r1 = r2) ∧
    (∀ p inc : ℚ, to_double p = p → to_double inc = inc →
      0 ≤ p → p < two_PI_double → 0 ≤ inc → inc < two_PI_double →
      ∃ r, wrap_loop_fp 1 (to_double (p + inc)) = some r ∧ r.2 ≤ 1 ∧
        (r.2 : ℤ) = ⌊to_double (p + inc) / two_PI_double⌋ ∧ 0 ≤ r.1 ∧
        r.1 < two_PI_double) := by
  refine ⟨fun q hq => ?_, wrap_loop_fp_det, wrap_loop_fp_well_formed⟩
  have hT := two_PI_double_gt
  obtain ⟨r, h1, h2⟩ := wrap_loop_fp_terminates ⌈|q|⌉₊ q (by
    have h1 : q ≤ |q| := le_abs_self q
    have h2 : |q| ≤ (⌈|q|⌉₊ : ℚ) := Nat.le_ceil _
    have h3 : (0 : ℚ) ≤ (⌈|q|⌉₊ : ℚ) := Nat.cast_nonneg _
    linarith) hq
  exact ⟨_, r, h1, h2⟩

set_option maxRecDepth 100000 in
/-- C12, cost of renormalisation: the loop on line 56 does not terminate for
every finite phase, although the comment on line 54 announces a phase wrapped
into `(0 to 2*PI)`.  The call with frequency `2^54` (a binary32 value), sample
rate 1 and count 1 on a fresh oscillator has the increment `2^54 * (2.0 * PI)`;
the phase takes that value, subtracting `2.0 * PI` from it rounds back to it in
binary64, and the call never returns, whatever bound is put on the loop.  The
same holds of the loop started at the finite phase `2^57`. -/
theorem huge_phase_never_wraps :
    to_double ((2 : ℚ) ^ 57 - two_PI_double) = 2 ^ 57 ∧
    (¬ ∃ fuel r, wrap_loop_fp fuel ((2 : ℚ) ^ 57) = some r) ∧
    to_float ((2 : ℚ) ^ 54) = 2 ^ 54 ∧
    ¬ ∃ fuel r, generate_samples_fp fuel (fun _ => 0) (some create_oscillator) (2 ^ 54) 1 1 0
      (Buffer.fresh fun _ => 0) 1 = some r := by
  have h1 : to_double ((2 : ℚ) ^ 57 - two_PI_double) = 2 ^ 57 := by decide!
  have h2 : (2 : ℚ) ^ 57 ≥ two_PI_double := by
    have := two_PI_double_lt
    have : (7 : ℚ) ≤ 2 ^ 57 := by norm_num
    linarith
  have h3 : to_double ((create_oscillator (K := ℚ)).phase + phase_increment_fp (2 ^ 54) 1) =
      113187804032455040 := by decide!
  have h4 : to_double ((113187804032455040 : ℚ) - two_PI_double) = 113187804032455040 := by
    decide!
  have h5 : (113187804032455040 : ℚ) ≥ two_PI_double := by
    have := two_PI_double_lt
    linarith
  refine ⟨h1, ?_, by decide!, ?_⟩
  · rintro ⟨fuel, r, hr⟩
    rw [wrap_loop_fp_fixed _ h2 h1 fuel] at hr
    exact absurd hr (by simp)
  · rintro ⟨fuel, r, hr⟩
    simp only [generate_samples_fp, sample_loop_fp, advance_phase_fp] at hr
    rw [h3, wrap_loop_fp_fixed _ h5 h4 fuel] at hr
    simp at hr

end Blooper4
